import Mathlib

/-!
# gdback: enrichment pipeline

A shallow embedding of `clients/client_windows.go` and `clients/db/db.go`:
the range scheduler and the sub-batch loop of `processData`, the batching of
`getFiles`, the record store calls they use and the table digest
`GetTableMD5`, followed by the properties proved about them.

Conventions.
* Go `int` is the 64-bit two's complement integer of the windows/amd64
  target; every `+` and `-` of the source is followed by `wrapInt`.
* What the source cannot decide (the file system, the SQL engine failing, the
  hash function of `crypto/md5`, the `%v` verb of `fmt`) is a parameter.
* A function that may fail to produce a result (run-time panic, a loop that
  does not end) returns an `Option`; `none` means "no result".
-/

namespace Gdback

/-! ## Go integers -/

/-- Largest value of a Go `int` (64 bit). -/
def MaxInt : Int := 9223372036854775807

/-- Smallest value of a Go `int` (64 bit). -/
def MinInt : Int := -9223372036854775808

/-- Two's complement wrap-around of an integer result to 64 bits. -/
def wrapInt (x : Int) : Int :=
  (x + 9223372036854775808) % 18446744073709551616 - 9223372036854775808

/-- Global `var BATCH_MAX_SIZE = 300` (never reassigned). -/
def BATCH_MAX_SIZE : Int := 300

/-! ## Records (`db.Data`) -/

/-- The struct `db.Data`. -/
structure Data where
  ID : Int
  FullPath : String
  FileName : String
  FileExtension : String
  HashMD5 : String
  SizeBytes : Int
  DateCreation : String
  DateLastModification : String
  deriving DecidableEq, Repr

/-! ## Range scheduler (`processData`, lines 187-199) -/

/-- One pass through the body of `for i := 1; i <= id; i++` on the pair
`(index_start, index_end)`. -/
def rangeBody (nrows nworkers total_files : Int) (st : Int × Int) (i : Int) : Int × Int :=
  let index_start := if i > 1 then wrapInt (st.1 + total_files) else st.1
  let index_end :=
    if i = nworkers then nrows else wrapInt (wrapInt (index_start + total_files) - 1)
  (index_start, index_end)

/-- The pair `(index_start, index_end)` that `processData` computes for the
worker with ordinal `id`. `none`: the division `nrows / nworkers` panics
(`nworkers = 0`), or the counter `i` can never exceed `id` (`id = MaxInt`). -/
def workerRange (nrows id nworkers : Int) : Option (Int × Int) :=
  if nworkers = 0 then none
  else if id = MaxInt then none
  else
    let total_files := wrapInt (Int.tdiv nrows nworkers)
    some (((List.range' 1 id.toNat).map Int.ofNat).foldl
      (rangeBody nrows nworkers total_files) (1, -1))

/-- Membership of an id in a closed range `[lo, hi]`. -/
def inRange (r : Int × Int) (x : Int) : Prop := r.1 ≤ x ∧ x ≤ r.2

instance (r : Int × Int) (x : Int) : Decidable (inRange r x) := by
  unfold inRange; exact inferInstance

/-- Number of ids of a closed range `[lo, hi]` with `lo ≤ hi + 1`. -/
def rangeCount (r : Int × Int) : Int := r.2 - r.1 + 1

/-- The id `x` lies in the range of worker `k` of `nworkers`. -/
def assignedTo (nrows nworkers k x : Int) : Prop :=
  ∃ r, workerRange nrows k nworkers = some r ∧ inRange r x

/-! ## Record store (`db.go`) -/

/-- What the SQL engine does that the source cannot decide: for each store
call, whether it comes back with an error (connection, statement, transaction
or commit failure). A failed transaction is rolled back: the table is left as
it was. -/
structure Faults where
  /-- `sql.Open` in `Connect` fails. -/
  connect : Bool
  /-- The query of `GetDatas(startID, endID)` (or a `Scan` of its rows) fails. -/
  query : Int → Int → Bool
  /-- The transaction of `InsertDatas(datas)` fails. -/
  insert : List Data → Bool
  /-- The transaction of `UpdateDatas(datas)` fails. -/
  update : List Data → Bool
  /-- The query of `GetTableMD5` fails. -/
  queryTable : Bool

/-- An engine on which every call succeeds. -/
def noFaults : Faults :=
  { connect := false, query := fun _ _ => false, insert := fun _ => false,
    update := fun _ => false, queryTable := false }

/-- A `*db.Database`: the rows of table `data`, in table order. -/
structure Database where
  data : List Data
  deriving DecidableEq, Repr

/-- `db.Connect(dbpath)`, `file` being the table stored at `dbpath`. -/
def Connect (flt : Faults) (file : List Data) : Except String Database :=
  if flt.connect then .error "Failed to open database connection" else .ok { data := file }

/-- `GetDatas(startID, endID)`: `SELECT * FROM data WHERE id >= ? AND id <= ?`. -/
def GetDatas (flt : Faults) (db : Database) (startID endID : Int) : Except String (List Data) :=
  if flt.query startID endID then .error "query failed"
  else .ok (db.data.filter (fun d => decide (startID ≤ d.ID ∧ d.ID ≤ endID)))

/-- The id an `INTEGER PRIMARY KEY AUTOINCREMENT` column gives the next row. -/
def nextID (table : List Data) : Int :=
  table.foldl (fun m d => max m d.ID) 0 + 1

/-- One `stmt.Exec` of `InsertDatas`: the row is appended under a fresh id. -/
def execInsert (table : List Data) (d : Data) : List Data :=
  table ++ [{ d with ID := nextID table }]

/-- `InsertDatas(datas)`: all rows in one transaction. -/
def InsertDatas (flt : Faults) (db : Database) (datas : List Data) : Except String Database :=
  if flt.insert datas then .error "Failed to insert data"
  else .ok { data := datas.foldl execInsert db.data }

/-- One `tx.Exec` of `UpdateDatas`: every column but `id` of the rows with
`id = d.ID` is overwritten. -/
def execUpdate (table : List Data) (d : Data) : List Data :=
  table.map (fun r => if r.ID = d.ID then { d with ID := r.ID } else r)

/-- `UpdateDatas(datas)`: nothing to do for an empty batch, else one
transaction over all rows. -/
def UpdateDatas (flt : Faults) (db : Database) (datas : List Data) : Except String Database :=
  if datas.length = 0 then .ok db
  else if flt.update datas then .error "Error updating table 'data'"
  else .ok { data := datas.foldl execUpdate db.data }

/-! ## Bytes, `crypto/md5`, `encoding/hex` -/

/-- A Go `byte`. -/
abbrev Byte := Fin 256

/-- The `[16]byte` that `md5.Sum` returns. -/
abbrev Digest := Fin 16 → Byte

/-- The slice `hash[:]` of a digest. -/
def Digest.bytes (d : Digest) : List Byte := List.ofFn d

/-- One hexadecimal digit, lower case. -/
def hexDigit (n : Fin 16) : Char :=
  ['0', '1', '2', '3', '4', '5', '6', '7', '8', '9', 'a', 'b', 'c', 'd', 'e', 'f'].getD n.val '0'

/-- The two hexadecimal digits of a byte. -/
def hexByte (b : Byte) : List Char :=
  [hexDigit ⟨b.val / 16, by omega⟩, hexDigit ⟨b.val % 16, by omega⟩]

/-- `hex.EncodeToString`. -/
def hexEncode (bs : List Byte) : String :=
  String.mk (bs.flatMap hexByte)

/-! ## The file system seen by a worker -/

/-- What `processData` reads of an `os.FileInfo`, times already formatted with
the layout `2006-01-02 15:04:05`. -/
structure FileInfo where
  Name : String
  Size : Int
  ModTime : String
  CreationTime : String
  deriving DecidableEq, Repr

/-- Result of `os.Open` followed by `io.Copy` into the hash. -/
inductive FileRead where
  | openError
  | copyError
  | content (bytes : List Byte)
  deriving DecidableEq, Repr

/-- The file system at enrichment time. -/
structure FileSystem where
  /-- `os.Stat(path)`: `none` when it returns an error. -/
  Stat : String → Option FileInfo
  /-- `os.Open(path)` and the read of the whole file. -/
  Read : String → FileRead
  /-- `filepath.Ext(path)`. -/
  Ext : String → String

/-- `getFileMD5(path)`: the hash string and whether an error is returned. -/
def getFileMD5 (md5 : List Byte → Digest) (fs : FileSystem) (path : String) : String × Bool :=
  match fs.Read path with
  | .openError => ("", true)
  | .copyError => ("", true)
  | .content bytes => (hexEncode (md5 bytes).bytes, false)

/-- `getFileCreationTimeWindows(path)`: the formatted creation time and
whether an error is returned. -/
def getFileCreationTimeWindows (fs : FileSystem) (path : String) : String × Bool :=
  match fs.Stat path with
  | none => ("", true)
  | some fileInfo => (fileInfo.CreationTime, false)

/-! ## Enrichment worker (`processData`, lines 201-239) -/

/-- Body of `for _, row := range rows` without the progress call
(lines 219-228). -/
def enrich (md5 : List Byte → Digest) (fs : FileSystem) (row : Data) : Data :=
  let path := row.FullPath
  let row1 :=
    match fs.Stat path with
    | some fileInfo =>
      { row with
        FileName := fileInfo.Name
        FileExtension := fs.Ext path
        SizeBytes := fileInfo.Size
        DateLastModification := fileInfo.ModTime }
    | none => row
  let row2 := { row1 with DateCreation := (getFileCreationTimeWindows fs path).1 }
  { row2 with HashMD5 := (getFileMD5 md5 fs path).1 }

/-- The loop `for _, row := range rows` (lines 218-230) on the rows read and
the number `bar` of `BAR.Incr()` calls made so far. -/
def enrichRows (md5 : List Byte → Digest) (fs : FileSystem) (rows : List Data) (bar : Nat) :
    List Data × Nat :=
  rows.foldl (fun acc row => (acc.1 ++ [enrich md5 fs row], acc.2 + 1)) ([], bar)

/-- A store call issued by a worker, with what came back. -/
inductive Event where
  /-- `GetDatas(startID, endID)`; `none` when it returned an error. -/
  | getDatas (startID endID : Int) (rows : Option (List Data))
  /-- `UpdateDatas(rows)` and whether it returned no error. -/
  | updateDatas (rows : List Data) (ok : Bool)
  deriving DecidableEq, Repr

/-- The variables of the sub-batch loop, the store, the progress count and
the store calls issued so far. -/
structure Worker where
  index_i : Int
  index_j : Int
  db : Database
  bar : Nat
  trace : List Event
  deriving DecidableEq, Repr

/-- How a worker ends. -/
inductive Outcome where
  /-- `processData` returned. -/
  | returned (w : Worker)
  /-- `logger.Error` was called: the process ended with `os.Exit(0)`. -/
  | exited (bar : Nat) (trace : List Event)
  deriving DecidableEq, Repr

/-- One pass through the body of the loop `for index_i <= index_end`
(lines 210-238): the variables for the next pass, or, when `logger.Error`
ends the process, the progress count and the store calls at that point. -/
def loopBody (md5 : List Byte → Digest) (fs : FileSystem) (flt : Faults) (index_end : Int)
    (w : Worker) : Except (Nat × List Event) Worker :=
  let index_j := if w.index_j > index_end then index_end else w.index_j
  match GetDatas flt w.db w.index_i index_j with
  | .error _ => .error (w.bar, w.trace ++ [.getDatas w.index_i index_j none])
  | .ok rows =>
    let nrows : Int := rows.length
    let done := enrichRows md5 fs rows w.bar
    let upd := UpdateDatas flt w.db done.1
    let db := match upd with
      | .ok db2 => db2
      | .error _ => w.db
    let ok := match upd with
      | .ok _ => true
      | .error _ => false
    let index_i := wrapInt (w.index_i + nrows)
    let index_j2 :=
      if wrapInt (index_i + BATCH_MAX_SIZE) ≤ index_end then wrapInt (index_j + BATCH_MAX_SIZE)
      else index_end
    .ok
      { index_i := index_i
        index_j := index_j2
        db := db
        bar := done.2
        trace := w.trace ++
          [.getDatas w.index_i index_j (some rows), .updateDatas done.1 ok] }

/-- The loop `for index_i <= index_end` (lines 209-239), run for at most
`fuel` passes; `none` when the passes are used up before the loop ends. -/
def batchLoop (md5 : List Byte → Digest) (fs : FileSystem) (flt : Faults) (index_end : Int) :
    Nat → Worker → Option Outcome
  | 0, _ => none
  | fuel + 1, w =>
    if w.index_i ≤ index_end then
      match loopBody md5 fs flt index_end w with
      | .error (bar, trace) => some (.exited bar trace)
      | .ok w2 => batchLoop md5 fs flt index_end fuel w2
    else some (.returned w)

/-- The state in which a worker enters the sub-batch loop (lines 207-208). -/
def workerInit (db : Database) (index_start : Int) (bar : Nat) : Worker :=
  { index_i := index_start
    index_j := wrapInt (index_start + BATCH_MAX_SIZE)
    db := db
    bar := bar
    trace := [] }

/-- `processData` for the worker `id` of `nworkers` on the table `file` of the
database at `dbpath`; `bar` counts the `BAR.Incr()` calls. -/
def processData (md5 : List Byte → Digest) (fs : FileSystem) (flt : Faults) (file : List Data)
    (nrows id nworkers : Int) (bar : Nat) (fuel : Nat) : Option Outcome :=
  match workerRange nrows id nworkers with
  | none => none
  | some (index_start, index_end) =>
    match Connect flt file with
    | .error _ => some (.exited bar [])
    | .ok database =>
      batchLoop md5 fs flt index_end fuel (workerInit database index_start bar)

/-- The `(index_i, index_j)` of the `GetDatas` calls of a trace, in order. -/
def readRanges (trace : List Event) : List (Int × Int) :=
  trace.filterMap (fun e =>
    match e with
    | .getDatas i j _ => some (i, j)
    | .updateDatas _ _ => none)

/-- The ids of the records that the `GetDatas` calls of a trace returned. -/
def readIds (trace : List Event) : List Int :=
  trace.flatMap (fun e =>
    match e with
    | .getDatas _ _ (some rows) => rows.map Data.ID
    | .getDatas _ _ none => []
    | .updateDatas _ _ => [])

/-- The ids of the records written by the `UpdateDatas` calls of a trace that
returned no error. -/
def writtenIds (trace : List Event) : List Int :=
  trace.flatMap (fun e =>
    match e with
    | .getDatas _ _ _ => []
    | .updateDatas rows true => rows.map Data.ID
    | .updateDatas _ false => [])

/-- The number of records each `GetDatas` call of a trace returned. -/
def readSizes (trace : List Event) : List Nat :=
  trace.filterMap (fun e =>
    match e with
    | .getDatas _ _ (some rows) => some rows.length
    | .getDatas _ _ none => none
    | .updateDatas _ _ => none)

/-- The ids `lo, lo + 1, ..., lo + n - 1`. -/
def idsFrom (lo : Int) (n : Nat) : List Int :=
  (List.range n).map (fun (k : Nat) => lo + (k : Int))

/-- The ids of `[lo, hi]`, in order. -/
def idsOf (lo hi : Int) : List Int := idsFrom lo (hi + 1 - lo).toNat

/-- The ids of the store that lie in `[lo, hi]` are `lo, lo + 1, ..., hi`, one
row each, in table order. -/
def Dense (db : Database) (lo hi : Int) : Prop :=
  (db.data.map Data.ID).filter (fun x => decide (lo ≤ x ∧ x ≤ hi)) = idsOf lo hi

/-- A list of read ranges that cuts `[lo, hi]` into consecutive non-empty
intervals; the empty list for an empty range. -/
def consecutive (lo hi : Int) : List (Int × Int) → Prop
  | [] => hi < lo
  | r :: rest => r.1 = lo ∧ lo ≤ r.2 ∧ r.2 ≤ hi ∧ consecutive (r.2 + 1) hi rest

/-- A record as `getFiles` creates it for `path`. -/
def placeholder (path : String) : Data :=
  { ID := 0
    FullPath := path
    FileName := ""
    FileExtension := ""
    HashMD5 := ""
    SizeBytes := -1
    DateCreation := ""
    DateLastModification := "" }

instance (db : Database) (lo hi : Int) : Decidable (Dense db lo hi) := by
  unfold Dense; exact inferInstance

/-- The store calls of a finished worker. -/
def Outcome.trace : Outcome → List Event
  | .returned w => w.trace
  | .exited _ trace => trace

/-- Whether the worker returned (rather than ending the process). -/
def Outcome.isReturned : Outcome → Bool
  | .returned _ => true
  | .exited _ _ => false

/-- The results of the `UpdateDatas` calls of a trace: `true` for no error. -/
def updateResults (trace : List Event) : List Bool :=
  trace.filterMap (fun e =>
    match e with
    | .getDatas _ _ _ => none
    | .updateDatas _ ok => some ok)

/-! ## Enumerator (`getFiles`) -/

/-- One call of the walk function by `filepath.Walk`: the path visited,
whether it is a directory, and whether the walk reports it with an error. -/
structure WalkEntry where
  path : String
  isDir : Bool
  err : Bool
  deriving DecidableEq, Repr

/-- The store, the pending slice `files`, and the batches handed to
`InsertDatas` so far. -/
structure Enumerator where
  db : Database
  files : List Data
  calls : List (List Data)
  deriving DecidableEq, Repr

/-- The function literal passed to `filepath.Walk` (lines 145-169). -/
def walkFn (flt : Faults) (st : Enumerator) (e : WalkEntry) : Except String Enumerator :=
  if e.err = false ∧ e.isDir = false then
    let files := st.files ++ [placeholder e.path]
    if (files.length : Int) ≥ BATCH_MAX_SIZE then
      match InsertDatas flt st.db files with
      | .error _ => .error "Failed to insert batch of files"
      | .ok db => .ok { db := db, files := [], calls := st.calls ++ [files] }
    else .ok { st with files := files }
  else .ok st

/-- `filepath.Walk` over the entries it visits, in order: it stops at the
first error the walk function returns. -/
def Walk (flt : Faults) : List WalkEntry → Enumerator → Except String Enumerator
  | [], st => .ok st
  | e :: rest, st =>
    match walkFn flt st e with
    | .error err => .error err
    | .ok st2 => Walk flt rest st2

/-- `getFiles(database, root)`, `entries` being what the walk of `root`
visits. -/
def getFiles (flt : Faults) (db : Database) (entries : List WalkEntry) :
    Except String Enumerator :=
  match Walk flt entries { db := db, files := [], calls := [] } with
  | .error _ => .error "Failed to walk through files"
  | .ok st =>
    if st.files.length > 0 then
      match InsertDatas flt st.db st.files with
      | .error _ => .error "Failed to insert remaining files"
      | .ok db2 => .ok { db := db2, files := st.files, calls := st.calls ++ [st.files] }
    else .ok st

/-- The placeholder records of the entries that are neither directories nor
reported with an error, in traversal order. -/
def walkedFiles (entries : List WalkEntry) : List Data :=
  (entries.filter (fun e => !e.err && !e.isDir)).map (fun e => placeholder e.path)

/-- A traversal of `n` plain files. -/
def plainFiles (n : Nat) : List WalkEntry :=
  (List.range n).map (fun _ => { path := "C:\\f", isDir := false, err := false })

/-- What holds of the enumerator after each entry: the batches sent and the
pending slice make up the files met so far, every batch sent is full, the
pending slice is not. -/
def EnumInv (st : Enumerator) (seen : List Data) : Prop :=
  st.calls.flatten ++ st.files = seen ∧ (∀ c ∈ st.calls, c.length = 300) ∧ st.files.length < 300

/-! ## Integrity digest (`GetTableMD5`) -/

/-- A value that `rows.Scan` stores in an `interface{}` for a column of the
tables of `setup`: `NULL`, an `INTEGER` or a `TEXT` given by its bytes. -/
inductive Value where
  | null
  | integer (n : Int)
  | text (bytes : List Byte)
  deriving DecidableEq, Repr

instance : Infinite Value :=
  Infinite.of_injective Value.integer (fun a b h => by cases h; rfl)

/-- The result set of `SELECT * FROM table`: the number of columns and the
rows in table order, each with its values in column order. -/
structure Table where
  columns : Nat
  rows : List (List Value)
  deriving DecidableEq, Repr

/-- Every row has one value per column. -/
def Table.wellFormed (t : Table) : Prop := ∀ row ∈ t.rows, row.length = t.columns

instance (t : Table) : Decidable t.wellFormed := by
  unfold Table.wellFormed; exact inferInstance

/-- The loop `for _, value := range values` (lines 288-292) on the running
byte sequence `hashes`; `fmtV` is the verb `%v` of `fmt.Sprintf`, so that
`Sprintf("%s%v", salt, value)` is `salt ++ fmtV value`. -/
def hashRow (md5 : List Byte → Digest) (fmtV : Value → List Byte) (salt : List Byte)
    (hashes : List Byte) (values : List Value) : List Byte :=
  values.foldl (fun h value => h ++ (md5 (salt ++ fmtV value)).bytes) hashes

/-- The loop `for rows.Next()` (lines 282-293): `rows.Scan` fails on a row
that has not one value per column. -/
def scanRows (md5 : List Byte → Digest) (fmtV : Value → List Byte) (salt : List Byte)
    (columns : Nat) : List (List Value) → List Byte → Except String (List Byte)
  | [], hashes => .ok hashes
  | row :: rest, hashes =>
    if row.length ≠ columns then .error "sql: wrong number of destination arguments in Scan"
    else scanRows md5 fmtV salt columns rest (hashRow md5 fmtV salt hashes row)

/-- `GetTableMD5(tableName, salt)`, `t` being the result set of the query. -/
def GetTableMD5 (md5 : List Byte → Digest) (fmtV : Value → List Byte) (flt : Faults)
    (t : Table) (salt : List Byte) : Except String String :=
  if flt.queryTable then .error "query failed"
  else
    match scanRows md5 fmtV salt t.columns t.rows [] with
    | .error e => .error e
    | .ok hashes => .ok (hexEncode (md5 hashes).bytes)

/-- The digest in the words of the specification: the hex encoding of the
hash of `B`, where `B` is the concatenation, over the rows in order and in
each row over the columns in order, of the 16 bytes of the hash of the salt
followed by the textual value of the cell. -/
def digestSpec (md5 : List Byte → Digest) (fmtV : Value → List Byte) (t : Table)
    (salt : List Byte) : String :=
  hexEncode (md5 (t.rows.flatMap (fun row =>
    row.flatMap (fun cell => (md5 (salt ++ fmtV cell)).bytes)))).bytes

/-- The value at row `i`, column `j` of a table. -/
def Table.cell (t : Table) (i j : Nat) : Option Value :=
  match t.rows.get? i with
  | none => none
  | some row => row.get? j

/-- The table with the value at row `i`, column `j` replaced by `v`. -/
def Table.setCell (t : Table) (i j : Nat) (v : Value) : Table :=
  { t with rows := t.rows.set i ((t.rows.getD i []).set j v) }

/-- The table with one more row at the end. -/
def Table.appendRow (t : Table) (row : List Value) : Table :=
  { t with rows := t.rows ++ [row] }

/-- The byte sequence that `GetTableMD5` hashes last, in the words of the
specification: over the rows in order and in each row over the columns in
order, the 16 bytes of the hash of the salt followed by the textual value of
the cell. -/
def cellHashes (md5 : List Byte → Digest) (fmtV : Value → List Byte) (t : Table)
    (salt : List Byte) : List Byte :=
  t.rows.flatMap (fun row => row.flatMap (fun cell => (md5 (salt ++ fmtV cell)).bytes))

/-- The verb `%v` on a value held as Go `nil`, `int64` or `string`: `<nil>`,
the decimal digits, the string itself. -/
def fmtVGo : Value → List Byte
  | .null => [60, 110, 105, 108, 62]
  | .integer n =>
    (if n < 0 then [45] else []) ++
      (Nat.toDigits 10 n.natAbs).map (fun c => (⟨c.toNat % 256, Nat.mod_lt _ (by decide)⟩ : Byte))
  | .text bytes => bytes

/-! ## Instances used at concrete inputs -/

/-- A table of `n` records as `getFiles` leaves it: ids `1..n`, every other
column as in `placeholder`. -/
def freshTable (n : Nat) : List Data :=
  (List.range n).map (fun (k : Nat) => { placeholder "C:\\f" with ID := (k : Int) + 1 })

/-- A file system on which no file can be stat'ed or opened. -/
def noFiles : FileSystem :=
  { Stat := fun _ => none, Read := fun _ => .openError, Ext := fun _ => "" }

/-- A 16-byte checksum standing in for `md5.Sum` where a theorem is applied
at a concrete input. -/
def checksum16 (bs : List Byte) : Digest :=
  fun i => ⟨(bs.foldl (fun a b => (a * 31 + b.val + 1) % 256) i.val) % 256,
    Nat.mod_lt _ (by decide)⟩

/-- An engine on which every `UpdateDatas` fails and every other call
succeeds. -/
def updateFaults : Faults :=
  { noFaults with update := fun _ => true }

/-! ## Scheduler: proofs -/

theorem wrapInt_of_bounds {x : Int} (h1 : MinInt ≤ x) (h2 : x ≤ MaxInt) : wrapInt x = x := by
  unfold MinInt at h1; unfold MaxInt at h2; unfold wrapInt; omega

theorem base_mul_le {N W : Int} (hW : 1 ≤ W) : W * (N / W) ≤ N := by
  have := Int.ediv_mul_le N (show W ≠ 0 by omega)
  rw [Int.mul_comm]; exact this

theorem base_nonneg {N W : Int} (hN : 0 ≤ N) (hW : 1 ≤ W) : 0 ≤ N / W :=
  Int.ediv_nonneg hN (by omega)

/-- For `n + 1 ≤ W` the product `n * b` stays below `N - b` when `W * b ≤ N`. -/
theorem mul_base_le {N W b n : Int} (hb : 0 ≤ b) (hWb : W * b ≤ N) (hn : n + 1 ≤ W) :
    n * b + b ≤ N := by
  have h1 : (n + 1) * b ≤ W * b := Int.mul_le_mul_of_nonneg_right hn hb
  have h3 : (n + 1) * b = n * b + b := by ring
  omega

/-- No scheduler sum overflows: `1 + n * b` is a Go `int` for `n + 1 ≤ W`. -/
theorem one_add_mul_le {N W b n : Int} (hN2 : N ≤ MaxInt) (hb : 0 ≤ b) (hWb : W * b ≤ N)
    (hn : n + 1 ≤ W) : 1 + n * b ≤ MaxInt := by
  have h := mul_base_le hb hWb hn
  by_cases hz : b = 0
  · subst hz; simp [MaxInt]
  · omega

/-- State of the scheduler loop after `n + 1` passes, `n + 1 ≤ W`. -/
theorem rangeLoop_closed (N W b : Int) (hN2 : N ≤ MaxInt) (hb : 0 ≤ b) (hWb : W * b ≤ N)
    (n : Nat) (hn : (n : Int) + 1 ≤ W) :
    ((List.range' 1 (n + 1)).map Int.ofNat).foldl (rangeBody N W b) (1, -1)
      = (1 + (n : Int) * b, if (n : Int) + 1 = W then N else (n : Int) * b + b) := by
  induction n with
  | zero =>
    simp only [List.range', List.map_cons, List.map_nil, List.foldl_cons, List.foldl_nil,
      rangeBody, wrapInt]
    have hb1 : 1 < W → 1 + 1 * b ≤ MaxInt := fun h =>
      one_add_mul_le (n := 1) hN2 hb hWb (by omega)
    unfold MaxInt at hb1
    refine Prod.ext ?_ ?_
    · simp
    · simp only [Int.ofNat_eq_coe, Nat.cast_one, Nat.cast_zero]
      split_ifs <;> omega
  | succ m ih =>
    have ihm := ih (by omega)
    rw [List.range'_concat, List.map_append, List.foldl_append, ihm]
    have hcast : Int.ofNat (1 + 1 * (m + 1)) = (m : Int) + 1 + 1 := by
      simp only [Int.ofNat_eq_coe]; push_cast; ring
    have hcast2 : (((m + 1 : Nat) : Int)) = (m : Int) + 1 := by push_cast; ring
    simp only [List.map_cons, List.map_nil, List.foldl_cons, List.foldl_nil, rangeBody, wrapInt]
    rw [hcast, hcast2]
    have hexp : ((m : Int) + 1) * b = (m : Int) * b + b := by ring
    have hexp2 : ((m : Int) + 1 + 1) * b = (m : Int) * b + b + b := by ring
    have hm0 : 0 ≤ (m : Int) * b := Int.mul_nonneg (by omega) hb
    have hb1 := one_add_mul_le (n := (m : Int) + 1) hN2 hb hWb (by omega)
    have hb2 : (m : Int) + 1 + 1 < W → 1 + ((m : Int) + 1 + 1) * b ≤ MaxInt := fun h =>
      one_add_mul_le (n := (m : Int) + 1 + 1) hN2 hb hWb (by omega)
    rw [hexp] at hb1
    rw [hexp2] at hb2
    rw [hexp]
    unfold MaxInt at hb1 hb2
    refine Prod.ext ?_ ?_
    · simp only []
      split_ifs <;> omega
    · simp only []
      split_ifs <;> omega

/-- Closed form of `workerRange` for a worker ordinal `1 ≤ k ≤ W`. -/
theorem workerRange_closed (N W k : Int) (hN : 0 ≤ N) (hN2 : N ≤ MaxInt) (hW : 1 ≤ W)
    (hW2 : W < MaxInt) (hk : 1 ≤ k) (hkW : k ≤ W) :
    workerRange N k W
      = some (1 + (k - 1) * (N / W), if k = W then N else k * (N / W)) := by
  have hb := base_nonneg hN hW
  have hWb := base_mul_le (N := N) hW
  have hbN : N / W ≤ N := Int.ediv_le_self W hN
  unfold workerRange
  have h0 : ¬ W = 0 := by omega
  have h1 : ¬ k = MaxInt := by omega
  rw [if_neg h0, if_neg h1]
  have htd : Int.tdiv N W = N / W := Int.tdiv_eq_ediv hN (by omega)
  have hw : wrapInt (N / W) = N / W :=
    wrapInt_of_bounds (by unfold MinInt; omega) (by omega)
  simp only [htd, hw]
  obtain ⟨n, hn⟩ : ∃ n : Nat, k.toNat = n + 1 := ⟨k.toNat - 1, by omega⟩
  have hkn : k = (n : Int) + 1 := by omega
  rw [hn, rangeLoop_closed N W (N / W) hN2 hb hWb n (by omega)]
  subst hkn
  have hexp : ((n : Int) + 1) * (N / W) = (n : Int) * (N / W) + N / W := by ring
  simp only [Int.add_sub_cancel, hexp]

/-- Membership in the range of worker `k`, through the closed form. -/
theorem assignedTo_iff (N W k x : Int) (hN : 0 ≤ N) (hN2 : N ≤ MaxInt) (hW : 1 ≤ W)
    (hW2 : W < MaxInt) (hk : 1 ≤ k) (hkW : k ≤ W) :
    assignedTo N W k x
      ↔ 1 + (k - 1) * (N / W) ≤ x ∧ x ≤ (if k = W then N else k * (N / W)) := by
  unfold assignedTo
  rw [workerRange_closed N W k hN hN2 hW hW2 hk hkW]
  constructor
  · rintro ⟨r, hr, hx⟩
    cases hr
    exact hx
  · intro hx
    exact ⟨_, rfl, hx⟩

/-- Two worker ordinals `k < k2` never share an id. -/
theorem assigned_disjoint_lt (N W k k2 x : Int) (hN : 0 ≤ N) (hN2 : N ≤ MaxInt) (hW : 1 ≤ W)
    (hW2 : W < MaxInt) (hk : 1 ≤ k) (hlt : k < k2) (hk2 : k2 ≤ W)
    (h1 : assignedTo N W k x) (h2 : assignedTo N W k2 x) : False := by
  rw [assignedTo_iff N W k x hN hN2 hW hW2 hk (by omega)] at h1
  rw [assignedTo_iff N W k2 x hN hN2 hW hW2 (by omega) hk2] at h2
  have hb := base_nonneg hN hW
  have hne : ¬ k = W := by omega
  rw [if_neg hne] at h1
  have hmul : k * (N / W) ≤ (k2 - 1) * (N / W) :=
    Int.mul_le_mul_of_nonneg_right (by omega) hb
  omega

/-- Every id of a worker range is an id of the table. -/
theorem assigned_within (N W k x : Int) (hN : 0 ≤ N) (hN2 : N ≤ MaxInt) (hW : 1 ≤ W)
    (hW2 : W < MaxInt) (hk : 1 ≤ k) (hkW : k ≤ W) (h : assignedTo N W k x) :
    1 ≤ x ∧ x ≤ N := by
  rw [assignedTo_iff N W k x hN hN2 hW hW2 hk hkW] at h
  have hb := base_nonneg hN hW
  have hWb := base_mul_le (N := N) hW
  have h0 : 0 ≤ (k - 1) * (N / W) := Int.mul_nonneg (by omega) hb
  refine ⟨by omega, ?_⟩
  by_cases hlast : k = W
  · rw [if_pos hlast] at h; exact h.2
  · rw [if_neg hlast] at h
    have hmul : k * (N / W) ≤ W * (N / W) := Int.mul_le_mul_of_nonneg_right hkW hb
    omega

/-- Every id of the table lies in the range of some worker. -/
theorem assigned_exists (N W x : Int) (hN : 0 ≤ N) (hN2 : N ≤ MaxInt) (hW : 1 ≤ W)
    (hW2 : W < MaxInt) (hx1 : 1 ≤ x) (hxN : x ≤ N) :
    ∃ k, 1 ≤ k ∧ k ≤ W ∧ assignedTo N W k x := by
  have hb := base_nonneg hN hW
  by_cases hlow : x ≤ (W - 1) * (N / W)
  · -- the id lies below the start of the last worker: worker (x - 1) / base + 1
    have hbpos : 0 < N / W := by
      by_contra h
      have hz : N / W = 0 := by omega
      rw [hz] at hlow; simp at hlow; omega
    have hq0 : 0 ≤ (x - 1) / (N / W) := Int.ediv_nonneg (by omega) (by omega)
    have hq1 : (x - 1) / (N / W) * (N / W) ≤ x - 1 := Int.ediv_mul_le _ (by omega)
    have hq2 : x - 1 < ((x - 1) / (N / W) + 1) * (N / W) :=
      Int.lt_ediv_add_one_mul_self _ hbpos
    have hq3 : ((x - 1) / (N / W) + 1) * (N / W)
        = (x - 1) / (N / W) * (N / W) + N / W := by ring
    have hqW : (x - 1) / (N / W) + 1 < W := by
      by_contra hcon
      have hge : W - 1 ≤ (x - 1) / (N / W) := by omega
      have := Int.mul_le_mul_of_nonneg_right hge hb
      omega
    refine ⟨(x - 1) / (N / W) + 1, by omega, by omega, ?_⟩
    rw [assignedTo_iff N W _ x hN hN2 hW hW2 (by omega) (by omega)]
    have hne : ¬ (x - 1) / (N / W) + 1 = W := by omega
    rw [if_neg hne]
    simp only [Int.add_sub_cancel]
    omega
  · refine ⟨W, hW, Int.le_refl W, ?_⟩
    rw [assignedTo_iff N W W x hN hN2 hW hW2 hW (Int.le_refl W)]
    rw [if_pos rfl]
    omega

/-! ## Worker: lemmas -/

theorem enrich_ID (md5 : List Byte → Digest) (fs : FileSystem) (row : Data) :
    (enrich md5 fs row).ID = row.ID := by
  cases h : fs.Stat row.FullPath <;> simp [enrich, h]

theorem enrich_FullPath (md5 : List Byte → Digest) (fs : FileSystem) (row : Data) :
    (enrich md5 fs row).FullPath = row.FullPath := by
  cases h : fs.Stat row.FullPath <;> simp [enrich, h]

theorem enrichRows_fold (md5 : List Byte → Digest) (fs : FileSystem) (rows acc : List Data)
    (bar : Nat) :
    rows.foldl (fun acc row => (acc.1 ++ [enrich md5 fs row], acc.2 + 1)) (acc, bar)
      = (acc ++ rows.map (enrich md5 fs), bar + rows.length) := by
  induction rows generalizing acc bar with
  | nil => simp
  | cons r rest ih =>
    simp only [List.foldl_cons, List.map_cons, List.length_cons]
    rw [ih]
    simp only [List.append_assoc, List.singleton_append]
    congr 1
    omega

/-- The row loop maps `enrich` over the batch and reports one unit of
progress per row. -/
theorem enrichRows_eq (md5 : List Byte → Digest) (fs : FileSystem) (rows : List Data)
    (bar : Nat) :
    enrichRows md5 fs rows bar = (rows.map (enrich md5 fs), bar + rows.length) := by
  unfold enrichRows
  rw [enrichRows_fold]
  simp

theorem execUpdate_ids (table : List Data) (d : Data) :
    (execUpdate table d).map Data.ID = table.map Data.ID := by
  unfold execUpdate
  rw [List.map_map]
  apply List.map_congr_left
  intro r _
  simp only [Function.comp]
  split <;> rfl

theorem foldl_execUpdate_ids (datas table : List Data) :
    (datas.foldl execUpdate table).map Data.ID = table.map Data.ID := by
  induction datas generalizing table with
  | nil => rfl
  | cons d rest ih =>
    simp only [List.foldl_cons]
    rw [ih, execUpdate_ids]

/-- `UpdateDatas` never changes the ids of the table. -/
theorem UpdateDatas_ids (flt : Faults) (db db2 : Database) (datas : List Data)
    (h : UpdateDatas flt db datas = .ok db2) : db2.data.map Data.ID = db.data.map Data.ID := by
  unfold UpdateDatas at h
  split at h
  · cases h; rfl
  · split at h
    · cases h
    · cases h
      exact foldl_execUpdate_ids datas db.data

theorem GetDatas_ids (db : Database) (i j : Int) (rows : List Data)
    (h : GetDatas noFaults db i j = .ok rows) :
    rows.map Data.ID = (db.data.map Data.ID).filter (fun x => decide (i ≤ x ∧ x ≤ j)) := by
  unfold GetDatas at h
  simp only [noFaults] at h
  cases h
  rw [List.filter_map]
  rfl

theorem idsFrom_append (lo : Int) (m n : Nat) :
    idsFrom lo (m + n) = idsFrom lo m ++ idsFrom (lo + m) n := by
  unfold idsFrom
  rw [List.range_add, List.map_append, List.map_map]
  congr 1
  apply List.map_congr_left
  intro k _
  simp only [Function.comp]
  push_cast
  omega

theorem mem_idsFrom (lo : Int) (n : Nat) (x : Int) :
    x ∈ idsFrom lo n ↔ lo ≤ x ∧ x < lo + n := by
  unfold idsFrom
  simp only [List.mem_map, List.mem_range]
  constructor
  · rintro ⟨k, hk, rfl⟩
    omega
  · intro ⟨h1, h2⟩
    exact ⟨(x - lo).toNat, by omega, by omega⟩

theorem idsFrom_length (lo : Int) (n : Nat) : (idsFrom lo n).length = n := by
  simp [idsFrom]

/-- Cutting `[lo, hi]` at `j`. -/
theorem idsOf_split (lo j hi : Int) (h1 : lo ≤ j + 1) (h2 : j ≤ hi) :
    idsOf lo hi = idsOf lo j ++ idsOf (j + 1) hi := by
  unfold idsOf
  have e : (hi + 1 - lo).toNat = (j + 1 - lo).toNat + (hi + 1 - (j + 1)).toNat := by omega
  rw [e, idsFrom_append]
  congr 2
  omega

/-- Filtering the ids of `[lo, hi]` by a sub-range `[a, j]`. -/
theorem filter_idsOf (lo hi a j : Int) (h1 : lo ≤ a) (h2 : a ≤ j + 1) (h3 : j ≤ hi) :
    (idsOf lo hi).filter (fun x => decide (a ≤ x ∧ x ≤ j)) = idsOf a j := by
  rw [idsOf_split lo (a - 1) hi (by omega) (by omega)]
  have e1 : a - 1 + 1 = a := by omega
  rw [e1, idsOf_split a j hi h2 h3, List.filter_append, List.filter_append]
  have f1 : (idsOf lo (a - 1)).filter (fun x => decide (a ≤ x ∧ x ≤ j)) = [] := by
    rw [List.filter_eq_nil_iff]
    intro x hx
    unfold idsOf at hx
    rw [mem_idsFrom] at hx
    simp only [decide_eq_true_eq]
    omega
  have f2 : (idsOf a j).filter (fun x => decide (a ≤ x ∧ x ≤ j)) = idsOf a j := by
    rw [List.filter_eq_self]
    intro x hx
    unfold idsOf at hx
    rw [mem_idsFrom] at hx
    simp only [decide_eq_true_eq]
    omega
  have f3 : (idsOf (j + 1) hi).filter (fun x => decide (a ≤ x ∧ x ≤ j)) = [] := by
    rw [List.filter_eq_nil_iff]
    intro x hx
    unfold idsOf at hx
    rw [mem_idsFrom] at hx
    simp only [decide_eq_true_eq]
    omega
  rw [f1, f2, f3]
  simp

/-- A dense range is dense on each of its sub-ranges. -/
theorem Dense.sub {db : Database} {lo hi : Int} (h : Dense db lo hi) (a j : Int)
    (h1 : lo ≤ a) (h2 : a ≤ j + 1) (h3 : j ≤ hi) : Dense db a j := by
  unfold Dense at h ⊢
  have e : (db.data.map Data.ID).filter (fun x => decide (a ≤ x ∧ x ≤ j))
      = ((db.data.map Data.ID).filter (fun x => decide (lo ≤ x ∧ x ≤ hi))).filter
          (fun x => decide (a ≤ x ∧ x ≤ j)) := by
    rw [List.filter_filter]
    apply List.filter_congr
    intro x _
    by_cases hx : a ≤ x ∧ x ≤ j
    · have : lo ≤ x ∧ x ≤ hi := by omega
      simp [hx, this]
    · simp [hx]
  rw [e, h, filter_idsOf lo hi a j h1 h2 h3]

/-- One pass of the loop body in which both store calls succeed. -/
theorem loopBody_ok (md5 : List Byte → Digest) (fs : FileSystem) (flt : Faults) (hi : Int)
    (w : Worker) (j : Int) (rows : List Data) (db2 : Database)
    (hj : j = if w.index_j > hi then hi else w.index_j)
    (hget : GetDatas flt w.db w.index_i j = .ok rows)
    (hupd : UpdateDatas flt w.db (rows.map (enrich md5 fs)) = .ok db2) :
    loopBody md5 fs flt hi w
      = .ok
          { index_i := wrapInt (w.index_i + (rows.length : Int))
            index_j :=
              if wrapInt (wrapInt (w.index_i + (rows.length : Int)) + BATCH_MAX_SIZE) ≤ hi
              then wrapInt (j + BATCH_MAX_SIZE) else hi
            db := db2
            bar := w.bar + rows.length
            trace := w.trace ++
              [.getDatas w.index_i j (some rows), .updateDatas (rows.map (enrich md5 fs)) true] } := by
  subst hj
  simp only [loopBody, hget, enrichRows_eq, hupd]

/-- One pass of the loop body in which `UpdateDatas` returns an error: the
error is dropped and the variables are advanced as after a success. -/
theorem loopBody_updateError (md5 : List Byte → Digest) (fs : FileSystem) (flt : Faults)
    (hi : Int) (w : Worker) (j : Int) (rows : List Data) (e : String)
    (hj : j = if w.index_j > hi then hi else w.index_j)
    (hget : GetDatas flt w.db w.index_i j = .ok rows)
    (hupd : UpdateDatas flt w.db (rows.map (enrich md5 fs)) = .error e) :
    loopBody md5 fs flt hi w
      = .ok
          { index_i := wrapInt (w.index_i + (rows.length : Int))
            index_j :=
              if wrapInt (wrapInt (w.index_i + (rows.length : Int)) + BATCH_MAX_SIZE) ≤ hi
              then wrapInt (j + BATCH_MAX_SIZE) else hi
            db := w.db
            bar := w.bar + rows.length
            trace := w.trace ++
              [.getDatas w.index_i j (some rows), .updateDatas (rows.map (enrich md5 fs)) false] } := by
  subst hj
  simp only [loopBody, hget, enrichRows_eq, hupd]

/-- A pass of the loop whose body gives the next state. -/
theorem batchLoop_step (md5 : List Byte → Digest) (fs : FileSystem) (flt : Faults) (hi : Int)
    (fuel : Nat) (w w2 : Worker) (hle : w.index_i ≤ hi) (hbody : loopBody md5 fs flt hi w = .ok w2) :
    batchLoop md5 fs flt hi (fuel + 1) w = batchLoop md5 fs flt hi fuel w2 := by
  simp only [batchLoop, hle, if_true, hbody]

/-- The pass in which the loop condition fails. -/
theorem batchLoop_done (md5 : List Byte → Digest) (fs : FileSystem) (flt : Faults) (hi : Int)
    (fuel : Nat) (w : Worker) (hgt : hi < w.index_i) :
    batchLoop md5 fs flt hi (fuel + 1) w = some (.returned w) := by
  have h : ¬ w.index_i ≤ hi := by omega
  simp only [batchLoop, h, if_false]

theorem UpdateDatas_noFaults (db : Database) (datas : List Data) :
    ∃ db2, UpdateDatas noFaults db datas = .ok db2 := by
  unfold UpdateDatas
  split
  · exact ⟨_, rfl⟩
  · simp only [noFaults]
    exact ⟨_, rfl⟩

theorem GetDatas_noFaults (db : Database) (i j : Int) :
    GetDatas noFaults db i j
      = .ok (db.data.filter (fun d => decide (i ≤ d.ID ∧ d.ID ≤ j))) := by
  simp [GetDatas, noFaults]

theorem idsOf_length (lo hi : Int) : (idsOf lo hi).length = (hi + 1 - lo).toNat := by
  unfold idsOf
  exact idsFrom_length _ _

theorem idsOf_empty (lo hi : Int) (h : hi < lo) : idsOf lo hi = [] := by
  unfold idsOf
  have : (hi + 1 - lo).toNat = 0 := by omega
  rw [this]
  rfl

/-- On a dense range and an engine without faults the sub-batch loop ends,
and its reads cut the range into consecutive intervals. -/
theorem batchLoop_dense (md5 : List Byte → Digest) (fs : FileSystem) (hi : Int)
    (hhi : hi + 301 ≤ MaxInt) :
    ∀ (n : Nat) (w : Worker), (hi + 1 - w.index_i).toNat ≤ n → MinInt ≤ w.index_i →
      (w.index_i ≤ hi → w.index_i ≤ w.index_j) → Dense w.db w.index_i hi →
      ∃ w2 evs, batchLoop md5 fs noFaults hi (n + 1) w = some (.returned w2) ∧
        w2.trace = w.trace ++ evs ∧ consecutive w.index_i hi (readRanges evs) ∧
        readIds evs = idsOf w.index_i hi ∧ writtenIds evs = idsOf w.index_i hi ∧
        w2.bar = w.bar + (hi + 1 - w.index_i).toNat ∧
        w2.db.data.map Data.ID = w.db.data.map Data.ID := by
  intro n
  induction n with
  | zero =>
    intro w hn _ _ _
    have hgt : hi < w.index_i := by omega
    refine ⟨w, [], batchLoop_done md5 fs noFaults hi 0 w hgt, by simp, ?_, ?_, ?_, ?_, rfl⟩
    · simpa [readRanges, consecutive] using hgt
    · rw [idsOf_empty _ _ hgt]; rfl
    · rw [idsOf_empty _ _ hgt]; rfl
    · omega
  | succ n ih =>
    intro w hn hmin hij hdense
    by_cases hle : w.index_i ≤ hi
    · -- one more batch
      obtain ⟨j, hj⟩ : ∃ j, j = if w.index_j > hi then hi else w.index_j := ⟨_, rfl⟩
      have hj1 : w.index_i ≤ j := by
        rw [hj]; have := hij hle; split <;> omega
      have hj2 : j ≤ hi := by
        rw [hj]; split <;> omega
      have hget := GetDatas_noFaults w.db w.index_i j
      obtain ⟨rows, hrows⟩ :
          ∃ rows, rows = w.db.data.filter (fun d => decide (w.index_i ≤ d.ID ∧ d.ID ≤ j)) :=
        ⟨_, rfl⟩
      rw [← hrows] at hget
      have hids : rows.map Data.ID = idsOf w.index_i j := by
        rw [GetDatas_ids w.db w.index_i j rows hget]
        exact hdense.sub w.index_i j (Int.le_refl _) (by omega) hj2
      have hlen : (rows.length : Int) = j + 1 - w.index_i := by
        have := congrArg List.length hids
        rw [List.length_map, idsOf_length] at this
        omega
      obtain ⟨db2, hupd⟩ := UpdateDatas_noFaults w.db (rows.map (enrich md5 fs))
      have hdb2 := UpdateDatas_ids noFaults w.db db2 _ hupd
      rw [batchLoop_step md5 fs noFaults hi (n + 1) w _ hle
        (loopBody_ok md5 fs noFaults hi w j rows db2 hj hget hupd)]
      have hi1 : wrapInt (w.index_i + (rows.length : Int)) = j + 1 := by
        rw [hlen]
        have e : w.index_i + (j + 1 - w.index_i) = j + 1 := by omega
        rw [e]
        exact wrapInt_of_bounds (by unfold MinInt at *; omega) (by unfold MaxInt at *; omega)
      have hi2 : wrapInt (j + 1 + BATCH_MAX_SIZE) = j + 301 := by
        unfold BATCH_MAX_SIZE
        rw [wrapInt_of_bounds (by unfold MinInt at *; omega) (by unfold MaxInt at *; omega)]
        omega
      have hi3 : wrapInt (j + BATCH_MAX_SIZE) = j + 300 := by
        unfold BATCH_MAX_SIZE
        exact wrapInt_of_bounds (by unfold MinInt at *; omega) (by unfold MaxInt at *; omega)
      rw [hi1, hi2, hi3]
      obtain ⟨w2, evs, hrun, htr, hcons, hread, hwr, hbar, hdb⟩ :=
        ih { index_i := j + 1
             index_j := if j + 301 ≤ hi then j + 300 else hi
             db := db2
             bar := w.bar + rows.length
             trace := w.trace ++
               [.getDatas w.index_i j (some rows),
                .updateDatas (rows.map (enrich md5 fs)) true] }
          (by simp only; omega) (by simp only; omega)
          (by simp only; intro h; split <;> omega)
          (by
            simp only
            have hd : Dense w.db (j + 1) hi := hdense.sub (j + 1) hi (by omega) (by omega)
              (Int.le_refl _)
            unfold Dense at hd ⊢
            rw [hdb2]; exact hd)
      simp only at hrun htr hcons hread hwr hbar hdb
      refine ⟨w2, [.getDatas w.index_i j (some rows),
        .updateDatas (rows.map (enrich md5 fs)) true] ++ evs, hrun, ?_, ?_, ?_, ?_, ?_, ?_⟩
      · rw [htr]; simp
      · simp only [readRanges, List.filterMap_append, List.filterMap_cons, List.filterMap_nil,
          List.nil_append, List.cons_append, consecutive]
        exact ⟨trivial, hj1, hj2, hcons⟩
      · simp only [readIds, List.flatMap_append, List.flatMap_cons, List.flatMap_nil,
          List.append_nil, List.nil_append]
        rw [hids, idsOf_split w.index_i j hi (by omega) hj2]
        congr 1
      · simp only [writtenIds, List.flatMap_append, List.flatMap_cons, List.flatMap_nil,
          List.append_nil, List.nil_append, List.map_map]
        rw [idsOf_split w.index_i j hi (by omega) hj2, ← hids]
        congr 1
        apply List.map_congr_left
        intro r _
        exact enrich_ID md5 fs r
      · rw [hbar]
        omega
      · rw [hdb, hdb2]
    · have hgt : hi < w.index_i := by omega
      refine ⟨w, [], batchLoop_done md5 fs noFaults hi (n + 1) w hgt, by simp, ?_, ?_, ?_, ?_,
        rfl⟩
      · simpa [readRanges, consecutive] using hgt
      · rw [idsOf_empty _ _ hgt]; rfl
      · rw [idsOf_empty _ _ hgt]; rfl
      · omega

/-! ## Claims on the scheduler -/

/-- C1: for every record count `N ≥ 0` and worker count `W ≥ 1` (Go `int`
values), the ranges that `processData` computes for the worker ordinals
`1..W` are pairwise disjoint and their union is exactly `{1..N}`: every id of
`1..N` lies in the range of exactly one worker, no range holds an id outside
`1..N`, and two different workers never share an id. -/
theorem C1_ranges_partition (N W : Int) (hN : 0 ≤ N) (hN2 : N ≤ MaxInt) (hW : 1 ≤ W)
    (hW2 : W < MaxInt) :
    (∀ x, 1 ≤ x → x ≤ N →
      ∃ k, (1 ≤ k ∧ k ≤ W ∧ assignedTo N W k x) ∧
        ∀ k2, 1 ≤ k2 → k2 ≤ W → assignedTo N W k2 x → k2 = k) ∧
    (∀ k x, 1 ≤ k → k ≤ W → assignedTo N W k x → 1 ≤ x ∧ x ≤ N) ∧
    (∀ k k2 x, 1 ≤ k → k ≤ W → 1 ≤ k2 → k2 ≤ W → k ≠ k2 →
      ¬ (assignedTo N W k x ∧ assignedTo N W k2 x)) := by
  have hdisj : ∀ k k2 x, 1 ≤ k → k ≤ W → 1 ≤ k2 → k2 ≤ W → k ≠ k2 →
      ¬ (assignedTo N W k x ∧ assignedTo N W k2 x) := by
    intro k k2 x hk hkW hk2 hk2W hne ⟨h1, h2⟩
    rcases Int.lt_or_gt_of_ne hne with hlt | hgt
    · exact assigned_disjoint_lt N W k k2 x hN hN2 hW hW2 hk hlt hk2W h1 h2
    · exact assigned_disjoint_lt N W k2 k x hN hN2 hW hW2 hk2 hgt hkW h2 h1
  refine ⟨?_, ?_, hdisj⟩
  · intro x hx1 hxN
    obtain ⟨k, hk, hkW, hin⟩ := assigned_exists N W x hN hN2 hW hW2 hx1 hxN
    refine ⟨k, ⟨hk, hkW, hin⟩, ?_⟩
    intro k2 hk2 hk2W hin2
    by_contra hne
    exact hdisj k2 k x hk2 hk2W hk hkW hne ⟨hin2, hin⟩
  · intro k x hk hkW hin
    exact assigned_within N W k x hN hN2 hW hW2 hk hkW hin

/-- C1 at `N = 7`, `W = 3`: id 5 belongs to worker 3 and to no other worker. -/
theorem C1_ranges_partition_witness :
    (∃ k, (1 ≤ k ∧ k ≤ 3 ∧ assignedTo 7 3 k 5) ∧
        ∀ k2, 1 ≤ k2 → k2 ≤ 3 → assignedTo 7 3 k2 5 → k2 = k) ∧
    workerRange 7 3 3 = some (5, 7) :=
  ⟨(C1_ranges_partition 7 3 (by decide) (by decide) (by decide) (by decide)).1 5
      (by decide) (by decide), by decide⟩

/-- C2: with `base = ⌊N / W⌋`, worker `k < W` gets the range
`[(k-1)*base + 1, k*base]` of exactly `base` ids and worker `W` gets
`[(W-1)*base + 1, N]` of exactly `N - (W-1)*base` ids; for `N < W` every
worker `k < W` gets the empty range `[1, 0]` and worker `W` gets `[1, N]`;
for `N = 7`, `W = 3` the ranges are `[1,2]`, `[3,4]`, `[5,7]`. -/
theorem C2_range_formula (N W : Int) (hN : 0 ≤ N) (hN2 : N ≤ MaxInt) (hW : 1 ≤ W)
    (hW2 : W < MaxInt) :
    (∀ k, 1 ≤ k → k < W →
      workerRange N k W = some ((k - 1) * (N / W) + 1, k * (N / W)) ∧
      rangeCount ((k - 1) * (N / W) + 1, k * (N / W)) = N / W) ∧
    (workerRange N W W = some ((W - 1) * (N / W) + 1, N) ∧
      rangeCount ((W - 1) * (N / W) + 1, N) = N - (W - 1) * (N / W)) ∧
    (N < W → (∀ k, 1 ≤ k → k < W → workerRange N k W = some (1, 0)) ∧
      workerRange N W W = some (1, N)) ∧
    (workerRange 7 1 3 = some (1, 2) ∧ workerRange 7 2 3 = some (3, 4) ∧
      workerRange 7 3 3 = some (5, 7)) := by
  have hk : ∀ k, 1 ≤ k → k < W →
      workerRange N k W = some ((k - 1) * (N / W) + 1, k * (N / W)) := by
    intro k hk1 hkW
    rw [workerRange_closed N W k hN hN2 hW hW2 hk1 (by omega)]
    have hne : ¬ k = W := by omega
    rw [if_neg hne, Int.add_comm]
  have hlast : workerRange N W W = some ((W - 1) * (N / W) + 1, N) := by
    rw [workerRange_closed N W W hN hN2 hW hW2 hW (Int.le_refl W)]
    rw [if_pos rfl, Int.add_comm]
  refine ⟨?_, ⟨hlast, ?_⟩, ?_, by decide⟩
  · intro k hk1 hkW
    refine ⟨hk k hk1 hkW, ?_⟩
    have hexp : k * (N / W) = (k - 1) * (N / W) + N / W := by ring
    simp only [rangeCount]
    omega
  · simp only [rangeCount]
    omega
  · intro hlt
    have hz : N / W = 0 := Int.ediv_eq_zero_of_lt hN hlt
    constructor
    · intro k hk1 hkW
      rw [hk k hk1 hkW, hz]
      simp
    · rw [hlast, hz]
      simp

/-- C2 at `N = 2`, `W = 5`: workers 1 and 4 get the empty range `[1, 0]`,
worker 5 gets `[1, 2]`. -/
theorem C2_range_formula_witness :
    workerRange 2 1 5 = some (1, 0) ∧ workerRange 2 4 5 = some (1, 0) ∧
      workerRange 2 5 5 = some (1, 2) :=
  have h := (C2_range_formula 2 5 (by decide) (by decide) (by decide) (by decide)).2.2.1
    (by decide)
  ⟨h.1 1 (by decide) (by decide), h.1 4 (by decide) (by decide), h.2⟩

/-! ## Claims on the enrichment worker -/

/-- C3: on a store whose ids are dense on the assigned range `[lo, hi]` (and
whose calls succeed) the sub-batch loop of `processData` ends, and the reads
it issues cut `[lo, hi]` into consecutive intervals: the ids read, in order,
are exactly `lo, ..., hi`, each once, the ids written back are the same, one
unit of progress is counted per id, and for an empty range (`hi < lo`) no
store call is issued. -/
theorem C3_batches_partition_range (md5 : List Byte → Digest) (fs : FileSystem) (db : Database)
    (lo hi : Int) (bar : Nat) (hlo : MinInt ≤ lo) (hhi : hi + 301 ≤ MaxInt)
    (hdense : Dense db lo hi) :
    ∃ fuel w, batchLoop md5 fs noFaults hi fuel (workerInit db lo bar) = some (.returned w) ∧
      consecutive lo hi (readRanges w.trace) ∧
      readIds w.trace = idsOf lo hi ∧
      writtenIds w.trace = idsOf lo hi ∧
      w.bar = bar + (hi + 1 - lo).toNat ∧
      (hi < lo → w.trace = []) := by
  obtain ⟨w2, evs, hrun, htr, hcons, hread, hwr, hbar, _⟩ :=
    batchLoop_dense md5 fs hi hhi (hi + 1 - lo).toNat (workerInit db lo bar)
      (by simp [workerInit]) (by simpa [workerInit] using hlo)
      (by
        simp only [workerInit]
        intro h
        unfold BATCH_MAX_SIZE
        rw [wrapInt_of_bounds (by unfold MinInt at *; omega) (by unfold MaxInt at *; omega)]
        omega)
      (by simpa [workerInit] using hdense)
  simp only [workerInit, List.nil_append] at htr hcons hread hwr hbar
  refine ⟨(hi + 1 - lo).toNat + 1, w2, hrun, ?_, ?_, ?_, hbar, ?_⟩
  · rw [htr]; exact hcons
  · rw [htr]; exact hread
  · rw [htr]; exact hwr
  · intro hlt
    have hdone := batchLoop_done md5 fs noFaults hi (hi + 1 - lo).toNat (workerInit db lo bar)
      (by simpa [workerInit] using hlt)
    rw [hdone] at hrun
    cases hrun
    rfl

/-- C3 on the range `[2, 4]` of a five-record table. -/
theorem C3_batches_partition_range_witness :
    ∃ fuel w, batchLoop checksum16 noFiles noFaults 4 fuel
        (workerInit { data := freshTable 5 } 2 0) = some (.returned w) ∧
      consecutive 2 4 (readRanges w.trace) ∧
      readIds w.trace = idsOf 2 4 ∧
      writtenIds w.trace = idsOf 2 4 ∧
      w.bar = 0 + (4 + 1 - 2 : Int).toNat ∧
      ((4 : Int) < 2 → w.trace = []) :=
  C3_batches_partition_range checksum16 noFiles { data := freshTable 5 } 2 4 0
    (by decide) (by decide) (by decide)

set_option maxRecDepth 1000000 in
/-- C4 fails on the code: worker 1 of 1 over a table of 301 records (ids
`1..301`) returns after a single read, `GetDatas(1, 301)`, which carries 301
records, one more than `BATCH_MAX_SIZE`. -/
theorem C4_first_batch_exceeds_max :
    (processData checksum16 noFiles noFaults (freshTable 301) 301 1 1 0 2).map
        (fun o => (o.isReturned, readRanges o.trace, readSizes o.trace))
      = some (true, [(1, 301)], [301]) ∧ BATCH_MAX_SIZE < 301 := by
  decide

/-- C8: for a placeholder record whose file can neither be stat'ed nor read
at enrichment time, the per-record step does not fail: the record written
back keeps its id and full path, has empty name, extension, dates and hash,
keeps the sentinel `-1` as size, counts for exactly one unit of progress, and
stays at its place in the batch handed to `UpdateDatas`, whose length is
that of the batch read. -/
theorem C8_unreadable_file_kept (md5 : List Byte → Digest) (fs : FileSystem) (row : Data)
    (before after : List Data) (bar : Nat)
    (hph : row = { placeholder row.FullPath with ID := row.ID })
    (hstat : fs.Stat row.FullPath = none)
    (hread : ∀ bytes, fs.Read row.FullPath ≠ .content bytes) :
    (enrich md5 fs row).ID = row.ID ∧
    (enrich md5 fs row).FullPath = row.FullPath ∧
    (enrich md5 fs row).FileName = "" ∧
    (enrich md5 fs row).FileExtension = "" ∧
    (enrich md5 fs row).DateCreation = "" ∧
    (enrich md5 fs row).DateLastModification = "" ∧
    (enrich md5 fs row).HashMD5 = "" ∧
    (enrich md5 fs row).SizeBytes = -1 ∧
    enrichRows md5 fs [row] bar = ([enrich md5 fs row], bar + 1) ∧
    (enrichRows md5 fs (before ++ row :: after) bar).1
      = before.map (enrich md5 fs) ++ enrich md5 fs row :: after.map (enrich md5 fs) ∧
    (enrichRows md5 fs (before ++ row :: after) bar).1.length = (before ++ row :: after).length ∧
    (enrichRows md5 fs (before ++ row :: after) bar).2 = bar + (before ++ row :: after).length := by
  have hmd5 : (getFileMD5 md5 fs row.FullPath).1 = "" := by
    unfold getFileMD5
    cases h : fs.Read row.FullPath with
    | openError => rfl
    | copyError => rfl
    | content bytes => exact absurd h (hread bytes)
  have hct : (getFileCreationTimeWindows fs row.FullPath).1 = "" := by
    unfold getFileCreationTimeWindows
    rw [hstat]
  have he : enrich md5 fs row
      = { row with DateCreation := "", HashMD5 := "" } := by
    simp only [enrich, hstat, hmd5, hct]
  have hfields : row.FileName = "" ∧ row.FileExtension = "" ∧ row.DateLastModification = "" ∧
      row.SizeBytes = -1 := by
    rw [hph]
    exact ⟨rfl, rfl, rfl, rfl⟩
  refine ⟨enrich_ID md5 fs row, enrich_FullPath md5 fs row, ?_, ?_, ?_, ?_, ?_, ?_, ?_, ?_, ?_, ?_⟩
  · rw [he]; exact hfields.1
  · rw [he]; exact hfields.2.1
  · rw [he]
  · rw [he]; exact hfields.2.2.1
  · rw [he]
  · rw [he]; exact hfields.2.2.2
  · rw [enrichRows_eq]; rfl
  · rw [enrichRows_eq]; simp
  · rw [enrichRows_eq]; simp
  · rw [enrichRows_eq]

/-- C8 at the record with id 5 of a batch of three, no file being readable. -/
theorem C8_unreadable_file_kept_witness :
    (enrich checksum16 noFiles { placeholder "C:\\gone.txt" with ID := 5 })
        = { placeholder "C:\\gone.txt" with ID := 5 } ∧
    (enrichRows checksum16 noFiles
        ([{ placeholder "C:\\a" with ID := 4 }] ++
          { placeholder "C:\\gone.txt" with ID := 5 } :: [{ placeholder "C:\\b" with ID := 6 }])
        0).1.length = 3 :=
  have h := C8_unreadable_file_kept checksum16 noFiles { placeholder "C:\\gone.txt" with ID := 5 }
    [{ placeholder "C:\\a" with ID := 4 }] [{ placeholder "C:\\b" with ID := 6 }] 0
    rfl rfl (fun _ hc => by cases hc)
  ⟨by decide, h.2.2.2.2.2.2.2.2.2.2.1⟩

/-- An error of `Connect` ends the process before any read. -/
theorem processData_connect_error (md5 : List Byte → Digest) (fs : FileSystem) (flt : Faults)
    (file : List Data) (nrows id nworkers : Int) (bar fuel : Nat) (r : Int × Int)
    (hr : workerRange nrows id nworkers = some r) (hc : flt.connect = true) :
    processData md5 fs flt file nrows id nworkers bar fuel = some (.exited bar []) := by
  simp only [processData, hr, Connect, hc, if_true]

/-- An error of `GetDatas` ends the process at that call. -/
theorem batchLoop_getDatas_error (md5 : List Byte → Digest) (fs : FileSystem) (flt : Faults)
    (hi : Int) (fuel : Nat) (w : Worker) (hle : w.index_i ≤ hi)
    (hq : flt.query w.index_i (if w.index_j > hi then hi else w.index_j) = true) :
    batchLoop md5 fs flt hi (fuel + 1) w
      = some (.exited w.bar
          (w.trace ++ [.getDatas w.index_i (if w.index_j > hi then hi else w.index_j) none])) := by
  simp only [batchLoop, hle, if_true, loopBody, GetDatas, hq]

set_option maxRecDepth 1000000 in
/-- C9 fails on the code: worker 1 of 1 over a table of 302 records, on an
engine where `UpdateDatas` returns an error, does not stop at the failed
update of the first sub-batch: it goes on to read the sub-batch `[302, 302]`,
issues a second update and returns normally. -/
theorem C9_update_error_ignored :
    (processData checksum16 noFiles updateFaults (freshTable 302) 302 1 1 0 3).map
        (fun o => (o.isReturned, readRanges o.trace, updateResults o.trace))
      = some (true, [(1, 301), (302, 302)], [false, false]) := by
  decide

/-- On a store with no id in `[lo, hi]` a pass of the loop body reads zero
rows and leaves `index_i` and the store as they were. -/
theorem loopBody_sparse (md5 : List Byte → Digest) (fs : FileSystem) (db : Database)
    (lo hi : Int) (hlo : MinInt ≤ lo) (hle : lo ≤ hi) (hhi : hi ≤ MaxInt)
    (hnone : ∀ d ∈ db.data, ¬ (lo ≤ d.ID ∧ d.ID ≤ hi)) (w : Worker)
    (hi1 : w.index_i = lo) (hdb : w.db = db) :
    ∃ w2, loopBody md5 fs noFaults hi w = .ok w2 ∧ w2.index_i = lo ∧ w2.db = db ∧
      ∃ j, w2.trace = w.trace ++ [.getDatas lo j (some []), .updateDatas [] true] := by
  obtain ⟨j, hj⟩ : ∃ j, j = if w.index_j > hi then hi else w.index_j := ⟨_, rfl⟩
  have hj2 : j ≤ hi := by
    rw [hj]; split <;> omega
  have hget : GetDatas noFaults w.db w.index_i j = .ok [] := by
    rw [GetDatas_noFaults, hdb, hi1]
    congr 1
    rw [List.filter_eq_nil_iff]
    intro d hd
    have := hnone d hd
    simp only [decide_eq_true_eq]
    omega
  have hupd : UpdateDatas noFaults w.db (([] : List Data).map (enrich md5 fs)) = .ok w.db := by
    simp [UpdateDatas]
  rw [loopBody_ok md5 fs noFaults hi w j [] w.db hj hget hupd]
  refine ⟨_, rfl, ?_, hdb, j, ?_⟩
  · simp only [List.length_nil, Nat.cast_zero, Int.add_zero, hi1]
    exact wrapInt_of_bounds hlo (by omega)
  · simp only [hi1, List.map_nil]

/-- C10: termination of the sub-batch loop depends on the ids being dense.
When the store has no record with an id in a non-empty range `[lo, hi]` (and
its calls succeed), every pass reads zero rows, advances `index_i` by zero and
leaves the loop condition true: no number of passes ends the loop. -/
theorem C10_sparse_ids_never_end (md5 : List Byte → Digest) (fs : FileSystem) (db : Database)
    (lo hi : Int) (bar : Nat) (hlo : MinInt ≤ lo) (hle : lo ≤ hi) (hhi : hi ≤ MaxInt)
    (hnone : ∀ d ∈ db.data, ¬ (lo ≤ d.ID ∧ d.ID ≤ hi)) :
    (∀ w : Worker, w.index_i = lo → w.db = db →
      ∃ w2, loopBody md5 fs noFaults hi w = .ok w2 ∧ w2.index_i = lo ∧ w2.index_i ≤ hi ∧
        readSizes (w2.trace.drop w.trace.length) = [0]) ∧
    ∀ fuel, batchLoop md5 fs noFaults hi fuel (workerInit db lo bar) = none := by
  constructor
  · intro w hi1 hdb
    obtain ⟨w2, hbody, h2i, _, j, htr⟩ :=
      loopBody_sparse md5 fs db lo hi hlo hle hhi hnone w hi1 hdb
    refine ⟨w2, hbody, h2i, by omega, ?_⟩
    rw [htr, List.drop_left]
    rfl
  · intro fuel
    have key : ∀ (n : Nat) (w : Worker), w.index_i = lo → w.db = db →
        batchLoop md5 fs noFaults hi n w = none := by
      intro n
      induction n with
      | zero => intro w _ _; rfl
      | succ n ih =>
        intro w hi1 hdb
        obtain ⟨w2, hbody, h2i, h2db, _⟩ :=
          loopBody_sparse md5 fs db lo hi hlo hle hhi hnone w hi1 hdb
        rw [batchLoop_step md5 fs noFaults hi n w w2 (by omega) hbody]
        exact ih w2 h2i h2db
    exact key fuel (workerInit db lo bar) rfl rfl

/-- C10 for worker 1 of 1 told of 5 records on an empty table: `processData`
has no result, whatever the number of passes. -/
theorem C10_sparse_ids_never_end_witness :
    ¬ ∃ fuel o, processData checksum16 noFiles noFaults [] 5 1 1 0 fuel = some o := by
  rintro ⟨fuel, o, h⟩
  have hr : workerRange 5 1 1 = some (1, 5) := by decide
  have hnever := (C10_sparse_ids_never_end checksum16 noFiles { data := [] } 1 5 0
    (by decide) (by decide) (by decide) (by simp)).2 fuel
  have hc : Connect noFaults [] = .ok { data := [] } := rfl
  simp only [processData, hr, hc] at h
  rw [hnever] at h
  cases h

/-! ## Claims on the enumerator -/

theorem InsertDatas_noFaults (db : Database) (datas : List Data) :
    InsertDatas noFaults db datas = .ok { data := datas.foldl execInsert db.data } := by
  simp [InsertDatas, noFaults]

theorem walkedFiles_append (l1 l2 : List WalkEntry) :
    walkedFiles (l1 ++ l2) = walkedFiles l1 ++ walkedFiles l2 := by
  simp [walkedFiles]

theorem walkFn_inv (st : Enumerator) (seen : List Data) (e : WalkEntry) (h : EnumInv st seen) :
    ∃ st2, walkFn noFaults st e = .ok st2 ∧ EnumInv st2 (seen ++ walkedFiles [e]) := by
  obtain ⟨h1, h2, h3⟩ := h
  unfold walkFn
  by_cases hfile : e.err = false ∧ e.isDir = false
  · rw [if_pos hfile]
    have hw : walkedFiles [e] = [placeholder e.path] := by
      simp [walkedFiles, hfile.1, hfile.2]
    rw [hw]
    by_cases hfull : ((st.files ++ [placeholder e.path]).length : Int) ≥ BATCH_MAX_SIZE
    · simp only [hfull, if_true, InsertDatas_noFaults]
      refine ⟨_, rfl, ?_, ?_, ?_⟩
      · simp only [List.flatten_concat, List.append_nil]
        rw [← h1, List.append_assoc]
      · intro c hc
        rw [List.mem_append] at hc
        rcases hc with hc | hc
        · exact h2 c hc
        · rw [List.mem_singleton] at hc
          subst hc
          unfold BATCH_MAX_SIZE at hfull
          simp only [List.length_append, List.length_singleton] at hfull ⊢
          omega
      · simp
    · simp only [hfull, if_false]
      refine ⟨_, rfl, ?_, h2, ?_⟩
      · simp only
        rw [← h1, List.append_assoc]
      · unfold BATCH_MAX_SIZE at hfull
        simp only [List.length_append, List.length_singleton] at hfull ⊢
        omega
  · rw [if_neg hfile]
    have hw : walkedFiles [e] = [] := by
      simp only [walkedFiles, List.map_eq_nil_iff, List.filter_eq_nil_iff, List.mem_singleton]
      intro a ha
      subst ha
      intro hc
      apply hfile
      simp only [Bool.and_eq_true, Bool.not_eq_true'] at hc
      exact hc
    rw [hw, List.append_nil]
    exact ⟨st, rfl, h1, h2, h3⟩

theorem Walk_inv (entries : List WalkEntry) :
    ∀ (st : Enumerator) (seen : List Data), EnumInv st seen →
      ∃ st2, Walk noFaults entries st = .ok st2 ∧ EnumInv st2 (seen ++ walkedFiles entries) := by
  induction entries with
  | nil =>
    intro st seen h
    refine ⟨st, rfl, ?_⟩
    simpa [walkedFiles] using h
  | cons e rest ih =>
    intro st seen h
    obtain ⟨st1, hstep, hinv1⟩ := walkFn_inv st seen e h
    obtain ⟨st2, hrest, hinv2⟩ := ih st1 _ hinv1
    refine ⟨st2, ?_, ?_⟩
    · simp only [Walk, hstep, hrest]
    · have : walkedFiles (e :: rest) = walkedFiles [e] ++ walkedFiles rest := by
        rw [← walkedFiles_append]; rfl
      rw [this, ← List.append_assoc]
      exact hinv2

theorem flatten_length_of_const (calls : List (List Data)) (h : ∀ c ∈ calls, c.length = 300) :
    calls.flatten.length = 300 * calls.length := by
  induction calls with
  | nil => rfl
  | cons c rest ih =>
    simp only [List.flatten_cons, List.length_append, List.length_cons]
    rw [ih (fun c2 hc2 => h c2 (List.mem_cons_of_mem _ hc2)), h c (List.mem_cons_self _ _)]
    omega

theorem walkedFiles_plainFiles_length (n : Nat) : (walkedFiles (plainFiles n)).length = n := by
  unfold walkedFiles plainFiles
  rw [List.length_map, List.filter_eq_self.mpr, List.length_map, List.length_range]
  intro e he
  rw [List.mem_map] at he
  obtain ⟨_, _, rfl⟩ := he
  rfl

/-- The batches of `getFiles` on a store that accepts every insert. -/
theorem getFiles_batches (db : Database) (entries : List WalkEntry) :
    ∃ st, getFiles noFaults db entries = .ok st ∧
      st.calls.length = ((walkedFiles entries).length + 299) / 300 ∧
      (∀ c ∈ st.calls, c ≠ []) ∧
      (∀ c ∈ st.calls.dropLast, c.length = 300) ∧
      (∀ c, st.calls.getLast? = some c →
        c.length = if (walkedFiles entries).length % 300 = 0 then 300
          else (walkedFiles entries).length % 300) ∧
      st.calls.flatten = walkedFiles entries := by
  obtain ⟨st, hwalk, hinv⟩ := Walk_inv entries { db := db, files := [], calls := [] } []
    ⟨rfl, by simp, by simp⟩
  rw [List.nil_append] at hinv
  obtain ⟨h1, h2, h3⟩ := hinv
  have hlen := congrArg List.length h1
  rw [List.length_append, flatten_length_of_const st.calls h2] at hlen
  unfold getFiles
  rw [hwalk]
  by_cases hrem : st.files.length > 0
  · simp only [hrem, if_true, InsertDatas_noFaults]
    refine ⟨_, rfl, ?_, ?_, ?_, ?_, ?_⟩
    · simp only [List.length_append, List.length_singleton]
      omega
    · intro c hc
      rw [List.mem_append] at hc
      rcases hc with hc | hc
      · intro hnil
        have := h2 c hc
        rw [hnil] at this
        simp at this
      · rw [List.mem_singleton] at hc
        subst hc
        intro hnil
        rw [hnil] at hrem
        simp at hrem
    · rw [List.dropLast_concat]
      exact h2
    · intro c hc
      rw [List.getLast?_concat] at hc
      cases hc
      have hmod : (walkedFiles entries).length % 300 = st.files.length := by omega
      rw [hmod]
      have hne : ¬ st.files.length = 0 := by omega
      rw [if_neg hne]
    · rw [List.flatten_concat]
      exact h1
  · simp only [hrem, if_false]
    have hz : st.files = [] := by
      cases hf : st.files with
      | nil => rfl
      | cons a l => rw [hf] at hrem; simp at hrem
    rw [hz] at h1 hlen
    simp only [List.append_nil, List.length_nil, Nat.add_zero] at h1 hlen
    refine ⟨st, rfl, ?_, ?_, ?_, ?_, h1⟩
    · omega
    · intro c hc hnil
      have := h2 c hc
      rw [hnil] at this
      simp at this
    · intro c hc
      exact h2 c (List.mem_of_mem_dropLast hc)
    · intro c hc
      have hmod : (walkedFiles entries).length % 300 = 0 := by omega
      rw [if_pos hmod]
      exact h2 c (List.mem_of_getLast?_eq_some hc)

/-- C7: when the walk yields `n` entries that are neither directories nor
reported with an error (the others are skipped and do not stop the walk) and
the store accepts every insert, `getFiles` issues exactly `⌈n / 300⌉` calls of
`InsertDatas`, none of them empty; every call but the last carries exactly 300
placeholder records, the last carries `n mod 300` when that is not zero (300
otherwise), and the batches, one after the other, are the entries in
traversal order. For 301 files the calls carry 300 and 1 records. -/
theorem C7_getFiles_batches (db : Database) (entries : List WalkEntry) :
    (∃ st, getFiles noFaults db entries = .ok st ∧
      st.calls.length = ((walkedFiles entries).length + 299) / 300 ∧
      (∀ c ∈ st.calls, c ≠ []) ∧
      (∀ c ∈ st.calls.dropLast, c.length = 300) ∧
      (∀ c, st.calls.getLast? = some c →
        c.length = if (walkedFiles entries).length % 300 = 0 then 300
          else (walkedFiles entries).length % 300) ∧
      st.calls.flatten = walkedFiles entries) ∧
    ((getFiles noFaults db (plainFiles 301)).toOption.map
      (fun st => st.calls.map List.length) = some [300, 1]) := by
  refine ⟨getFiles_batches db entries, ?_⟩
  obtain ⟨st, hrun, hlen, _, hfull, hlast, _⟩ := getFiles_batches db (plainFiles 301)
  have hn : (walkedFiles (plainFiles 301)).length = 301 := walkedFiles_plainFiles_length 301
  rw [hn] at hlen hlast
  rw [hrun]
  match hc : st.calls, hlen with
  | [a, b], _ =>
    rw [hc] at hfull hlast
    have ha := hfull a (by simp)
    have hb := hlast b (by simp)
    simp only [Except.toOption, Option.map_some', List.map_cons, List.map_nil, hc, ha, hb]
    rfl

/-! ## Claims on the integrity digest -/

/-- The bytes that one row adds to the running sequence. -/
theorem hashRow_eq (md5 : List Byte → Digest) (fmtV : Value → List Byte) (salt hashes : List Byte)
    (values : List Value) :
    hashRow md5 fmtV salt hashes values
      = hashes ++ values.flatMap (fun cell => (md5 (salt ++ fmtV cell)).bytes) := by
  unfold hashRow
  induction values generalizing hashes with
  | nil => simp
  | cons v rest ih =>
    simp only [List.foldl_cons, List.flatMap_cons]
    rw [ih, List.append_assoc]

/-- The running sequence after all rows of a well-formed result set. -/
theorem scanRows_eq (md5 : List Byte → Digest) (fmtV : Value → List Byte) (salt : List Byte)
    (columns : Nat) (rows : List (List Value)) (hashes : List Byte)
    (hwf : ∀ row ∈ rows, row.length = columns) :
    scanRows md5 fmtV salt columns rows hashes
      = .ok (hashes ++ rows.flatMap (fun row =>
          row.flatMap (fun cell => (md5 (salt ++ fmtV cell)).bytes))) := by
  induction rows generalizing hashes with
  | nil => simp [scanRows]
  | cons row rest ih =>
    have hrow : ¬ row.length ≠ columns := by
      have := hwf row (List.mem_cons_self _ _)
      omega
    simp only [scanRows, hrow, if_false, List.flatMap_cons]
    rw [ih _ (fun r hr => hwf r (List.mem_cons_of_mem _ hr)), hashRow_eq, List.append_assoc]

/-- `GetTableMD5` computes the digest of the specification. -/
theorem GetTableMD5_eq_spec (md5 : List Byte → Digest) (fmtV : Value → List Byte) (t : Table)
    (salt : List Byte) (hwf : t.wellFormed) :
    GetTableMD5 md5 fmtV noFaults t salt = .ok (digestSpec md5 fmtV t salt) := by
  unfold GetTableMD5 digestSpec
  rw [scanRows_eq md5 fmtV salt t.columns t.rows [] hwf]
  simp [noFaults]

/-- C5: for every table (rows in table order, each with one value per column
in column order) and every salt, `GetTableMD5` returns the hex encoding of
`md5(B)`, `B` being the concatenation over the rows in order and in each row
over the columns in order of the 16 bytes `md5(salt ++ text(cell))`, salt
first; for a table without rows it returns the hex encoding of the hash of the
empty byte sequence. -/
theorem C5_digest_is_hash_of_cell_hashes (md5 : List Byte → Digest) (fmtV : Value → List Byte)
    (t : Table) (salt : List Byte) (hwf : t.wellFormed) :
    GetTableMD5 md5 fmtV noFaults t salt
      = .ok (hexEncode (md5 (t.rows.flatMap (fun row =>
          row.flatMap (fun cell => List.ofFn (md5 (salt ++ fmtV cell)))))).bytes) ∧
    GetTableMD5 md5 fmtV noFaults t salt = .ok (digestSpec md5 fmtV t salt) ∧
    (t.rows = [] →
      GetTableMD5 md5 fmtV noFaults t salt = .ok (hexEncode (md5 []).bytes)) := by
  have h := GetTableMD5_eq_spec md5 fmtV t salt hwf
  refine ⟨h, h, ?_⟩
  intro hempty
  rw [h]
  unfold digestSpec
  rw [hempty]
  rfl

/-- C5 on a table of two rows and two columns, and on the same table without
rows. -/
theorem C5_digest_is_hash_of_cell_hashes_witness :
    Table.wellFormed { columns := 2, rows := [[.integer 1, .text [97]], [.integer 2, .null]] } ∧
    GetTableMD5 checksum16 fmtVGo noFaults
        { columns := 2, rows := [[.integer 1, .text [97]], [.integer 2, .null]] } [115]
      = .ok (digestSpec checksum16 fmtVGo
          { columns := 2, rows := [[.integer 1, .text [97]], [.integer 2, .null]] } [115]) ∧
    GetTableMD5 checksum16 fmtVGo noFaults { columns := 2, rows := [] } [115]
      = .ok (hexEncode (checksum16 []).bytes) :=
  ⟨by decide,
   (C5_digest_is_hash_of_cell_hashes checksum16 fmtVGo
      { columns := 2, rows := [[.integer 1, .text [97]], [.integer 2, .null]] } [115]
      (by decide)).2.1,
   (C5_digest_is_hash_of_cell_hashes checksum16 fmtVGo { columns := 2, rows := [] } [115]
      (by decide)).2.2 rfl⟩

theorem hexDigit_injective : ∀ a b : Fin 16, hexDigit a = hexDigit b → a = b := by
  decide

theorem hexByte_injective (a b : Byte) (h : hexByte a = hexByte b) : a = b := by
  unfold hexByte at h
  simp only [List.cons.injEq, and_true] at h
  have h1 := hexDigit_injective _ _ h.1
  have h2 := hexDigit_injective _ _ h.2
  simp only [Fin.mk.injEq] at h1 h2
  apply Fin.ext
  omega

theorem flatMap_hexByte_injective (l1 l2 : List Byte)
    (h : l1.flatMap hexByte = l2.flatMap hexByte) : l1 = l2 := by
  induction l1 generalizing l2 with
  | nil =>
    cases l2 with
    | nil => rfl
    | cons b rest => simp [hexByte] at h
  | cons a rest ih =>
    cases l2 with
    | nil => simp [hexByte] at h
    | cons b rest2 =>
      simp only [List.flatMap_cons] at h
      have hlen : (hexByte a).length = (hexByte b).length := rfl
      obtain ⟨h1, h2⟩ := List.append_inj h hlen
      rw [hexByte_injective a b h1, ih rest2 h2]

/-- `hex.EncodeToString` is one to one. -/
theorem hexEncode_injective (l1 l2 : List Byte) (h : hexEncode l1 = hexEncode l2) : l1 = l2 := by
  unfold hexEncode at h
  exact flatMap_hexByte_injective l1 l2 (congrArg String.data h)

theorem Digest.bytes_injective (d1 d2 : Digest) (h : d1.bytes = d2.bytes) : d1 = d2 :=
  List.ofFn_injective h

/-- Two hex-encoded digests agree exactly when the hashes agree. -/
theorem hexEncode_hash_eq_iff (md5 : List Byte → Digest) (x y : List Byte) :
    hexEncode (md5 x).bytes = hexEncode (md5 y).bytes ↔ md5 x = md5 y := by
  constructor
  · intro h
    exact Digest.bytes_injective _ _ (hexEncode_injective _ _ h)
  · intro h
    rw [h]

/-- A list around its element at place `i`, and the list with that element
replaced, mapped and flattened. -/
theorem flatMap_around {α β : Type} (f : α → List β) (l : List α) (i : Nat) (a b : α)
    (hi : l.get? i = some a) :
    l.flatMap f = (l.take i).flatMap f ++ f a ++ (l.drop (i + 1)).flatMap f ∧
    (l.set i b).flatMap f = (l.take i).flatMap f ++ f b ++ (l.drop (i + 1)).flatMap f := by
  rw [List.get?_eq_getElem?, List.getElem?_eq_some] at hi
  obtain ⟨hlt, ha⟩ := hi
  have hsplit : l = l.take i ++ a :: l.drop (i + 1) := by
    rw [← ha, List.getElem_cons_drop, List.take_append_drop]
  constructor
  · conv_lhs => rw [hsplit]
    simp only [List.flatMap_append, List.flatMap_cons, List.append_assoc]
  · rw [List.set_eq_take_append_cons_drop, if_pos hlt]
    simp only [List.flatMap_append, List.flatMap_cons, List.append_assoc]

theorem setCell_wellFormed (t : Table) (i j : Nat) (v : Value) (hwf : t.wellFormed) :
    (t.setCell i j v).wellFormed := by
  intro row hrow
  simp only [Table.setCell] at hrow ⊢
  by_cases hi : i < t.rows.length
  · rcases List.mem_or_eq_of_mem_set hrow with h | h
    · exact hwf row h
    · rw [h, List.length_set, List.getD_eq_getElem _ _ hi]
      exact hwf _ (List.getElem_mem _)
  · rw [List.set_eq_of_length_le (by omega)] at hrow
    exact hwf row hrow

/-- The byte sequence hashed last, around the 16 bytes of one cell: replacing
the cell replaces these 16 bytes and nothing else. -/
theorem setCell_bytes (md5 : List Byte → Digest) (fmtV : Value → List Byte) (salt : List Byte)
    (t : Table) (i j : Nat) (old v : Value) (hcell : t.cell i j = some old) :
    ∃ P Q,
      t.rows.flatMap (fun row => row.flatMap (fun cell => (md5 (salt ++ fmtV cell)).bytes))
        = P ++ (md5 (salt ++ fmtV old)).bytes ++ Q ∧
      (t.setCell i j v).rows.flatMap
          (fun row => row.flatMap (fun cell => (md5 (salt ++ fmtV cell)).bytes))
        = P ++ (md5 (salt ++ fmtV v)).bytes ++ Q := by
  unfold Table.cell at hcell
  cases hrow : t.rows.get? i with
  | none => rw [hrow] at hcell; cases hcell
  | some row =>
    rw [hrow] at hcell
    simp only at hcell
    have hget : t.rows.getD i [] = row := by
      rw [List.getD_eq_getElem?_getD, ← List.get?_eq_getElem?, hrow]
      rfl
    obtain ⟨r1, r2⟩ := flatMap_around
      (fun row : List Value => row.flatMap (fun cell => (md5 (salt ++ fmtV cell)).bytes))
      t.rows i row (row.set j v) hrow
    obtain ⟨c1, c2⟩ := flatMap_around
      (fun cell : Value => (md5 (salt ++ fmtV cell)).bytes) row j old v hcell
    refine ⟨(t.rows.take i).flatMap
        (fun row => row.flatMap (fun cell => (md5 (salt ++ fmtV cell)).bytes)) ++
        (row.take j).flatMap (fun cell => (md5 (salt ++ fmtV cell)).bytes),
      (row.drop (j + 1)).flatMap (fun cell => (md5 (salt ++ fmtV cell)).bytes) ++
        (t.rows.drop (i + 1)).flatMap
          (fun row => row.flatMap (fun cell => (md5 (salt ++ fmtV cell)).bytes)), ?_, ?_⟩
    · rw [r1]
      simp only [c1, List.append_assoc]
    · simp only [Table.setCell, hget]
      rw [r2]
      simp only [c2, List.append_assoc]

/-- The digest of the specification is the hex encoding of the hash of
`cellHashes`. -/
theorem digestSpec_eq (md5 : List Byte → Digest) (fmtV : Value → List Byte) (t : Table)
    (salt : List Byte) :
    digestSpec md5 fmtV t salt = hexEncode (md5 (cellHashes md5 fmtV t salt)).bytes := rfl

/-- The slice `hashes` that the loops of `GetTableMD5` leave on a well-formed
result set is `cellHashes`. -/
theorem scanRows_eq_cellHashes (md5 : List Byte → Digest) (fmtV : Value → List Byte)
    (t : Table) (salt : List Byte) (hwf : t.wellFormed) :
    scanRows md5 fmtV salt t.columns t.rows [] = .ok (cellHashes md5 fmtV t salt) := by
  rw [scanRows_eq md5 fmtV salt t.columns t.rows [] hwf, List.nil_append]
  rfl

/-- Replacing one cell leaves the accumulated byte sequence as it was exactly
when the two salted cell texts have the same hash. -/
theorem setCell_cellHashes_eq_iff (md5 : List Byte → Digest) (fmtV : Value → List Byte)
    (salt : List Byte) (t : Table) (i j : Nat) (old v : Value) (hcell : t.cell i j = some old) :
    cellHashes md5 fmtV (t.setCell i j v) salt = cellHashes md5 fmtV t salt
      ↔ md5 (salt ++ fmtV v) = md5 (salt ++ fmtV old) := by
  obtain ⟨P, Q, hB, hB2⟩ := setCell_bytes md5 fmtV salt t i j old v hcell
  unfold cellHashes
  rw [hB, hB2]
  constructor
  · intro heq
    rw [List.append_assoc, List.append_assoc] at heq
    have h1 := List.append_cancel_left heq
    have hlen : (md5 (salt ++ fmtV v)).bytes.length = (md5 (salt ++ fmtV old)).bytes.length := by
      simp [Digest.bytes]
    exact Digest.bytes_injective _ _ (List.append_inj h1 hlen).1
  · intro heq
    rw [heq]

/-- On well-formed tables two results of `GetTableMD5` agree exactly when the
hashes of the accumulated byte sequences agree. -/
theorem GetTableMD5_eq_iff (md5 : List Byte → Digest) (fmtV : Value → List Byte)
    (salt : List Byte) (t t2 : Table) (hwf : t.wellFormed) (hwf2 : t2.wellFormed) :
    GetTableMD5 md5 fmtV noFaults t2 salt = GetTableMD5 md5 fmtV noFaults t salt
      ↔ md5 (cellHashes md5 fmtV t2 salt) = md5 (cellHashes md5 fmtV t salt) := by
  rw [GetTableMD5_eq_spec md5 fmtV t salt hwf, GetTableMD5_eq_spec md5 fmtV t2 salt hwf2,
    digestSpec_eq, digestSpec_eq, ← hexEncode_hash_eq_iff]
  constructor
  · intro h
    exact Except.ok.inj h
  · intro h
    rw [h]

/-- A cell replaced by a value with the same textual form: the digest stays. -/
theorem setCell_same_text (md5 : List Byte → Digest) (fmtV : Value → List Byte)
    (salt : List Byte) (t : Table) (i j : Nat) (old v : Value) (hwf : t.wellFormed)
    (hcell : t.cell i j = some old) (htext : fmtV v = fmtV old) :
    GetTableMD5 md5 fmtV noFaults (t.setCell i j v) salt
      = GetTableMD5 md5 fmtV noFaults t salt := by
  rw [GetTableMD5_eq_iff md5 fmtV salt t _ hwf (setCell_wellFormed t i j v hwf),
    (setCell_cellHashes_eq_iff md5 fmtV salt t i j old v hcell).mpr (by rw [htext])]

theorem appendRow_wellFormed (t : Table) (row : List Value) (hwf : t.wellFormed)
    (hrow : row.length = t.columns) : (t.appendRow row).wellFormed := by
  intro r hr
  simp only [Table.appendRow, List.mem_append, List.mem_singleton] at hr ⊢
  rcases hr with h | h
  · exact hwf r h
  · rw [h]; exact hrow

/-- One more row puts its cell hashes after the accumulated byte sequence. -/
theorem appendRow_cellHashes (md5 : List Byte → Digest) (fmtV : Value → List Byte)
    (salt : List Byte) (t : Table) (row : List Value) :
    cellHashes md5 fmtV (t.appendRow row) salt
      = cellHashes md5 fmtV t salt
          ++ row.flatMap (fun cell => (md5 (salt ++ fmtV cell)).bytes) := by
  simp only [cellHashes, Table.appendRow, List.flatMap_append, List.flatMap_cons,
    List.flatMap_nil, List.append_nil]

/-- One more non-empty row makes the accumulated byte sequence longer. -/
theorem appendRow_cellHashes_ne (md5 : List Byte → Digest) (fmtV : Value → List Byte)
    (salt : List Byte) (t : Table) (row : List Value) (hne : row ≠ []) :
    cellHashes md5 fmtV (t.appendRow row) salt ≠ cellHashes md5 fmtV t salt := by
  intro heq
  have hlen := congrArg List.length heq
  rw [appendRow_cellHashes, List.length_append] at hlen
  cases row with
  | nil => exact hne rfl
  | cons c rest =>
    simp only [List.flatMap_cons, List.length_append, Digest.bytes, List.length_ofFn] at hlen
    omega

/-- C6 as stated fails. At a concrete input: in the table with the single row
`(1, NULL)` the cell `(0, 1)` holds `NULL`; under the verb `%v` the text
`<nil>`, a different value, has the same textual form, and writing it
there leaves the digest as it was, for every hash function and every salt.
In general: whatever function from byte sequences to 16 bytes stands for
`md5.Sum` and whatever the textual form of the values, some table has a cell
and a different replacement value that leave the digest unchanged. -/
theorem C6_some_cell_change_keeps_digest :
    (Value.text [60, 110, 105, 108, 62] ≠ Value.null ∧
      Table.wellFormed { columns := 2, rows := [[.integer 1, .null]] } ∧
      Table.cell { columns := 2, rows := [[.integer 1, .null]] } 0 1 = some .null ∧
      ¬ ∃ (md5 : List Byte → Digest) (salt : List Byte),
        GetTableMD5 md5 fmtVGo noFaults
            (Table.setCell { columns := 2, rows := [[.integer 1, .null]] } 0 1
              (.text [60, 110, 105, 108, 62])) salt
          ≠ GetTableMD5 md5 fmtVGo noFaults
              { columns := 2, rows := [[.integer 1, .null]] } salt) ∧
    ¬ ∃ (md5 : List Byte → Digest) (fmtV : Value → List Byte),
      ∀ (salt : List Byte) (t : Table) (i j : Nat) (old v : Value),
        t.wellFormed → t.cell i j = some old → v ≠ old →
        GetTableMD5 md5 fmtV noFaults (t.setCell i j v) salt
          ≠ GetTableMD5 md5 fmtV noFaults t salt := by
  refine ⟨⟨by decide, by decide, rfl, ?_⟩, ?_⟩
  · rintro ⟨md5, salt, hne⟩
    exact hne (setCell_same_text md5 fmtVGo salt _ 0 1 .null (.text [60, 110, 105, 108, 62])
      (by decide) rfl rfl)
  · rintro ⟨md5, fmtV, hclaim⟩
    obtain ⟨v, old, hne, heq⟩ := Finite.exists_ne_map_eq_of_infinite
      (fun c : Value => md5 ((md5 ([] ++ fmtV c)).bytes))
    have hwf : Table.wellFormed { columns := 1, rows := [[old]] } := by
      intro row hrow
      simp only [List.mem_singleton] at hrow
      rw [hrow]; rfl
    apply hclaim [] { columns := 1, rows := [[old]] } 0 0 old v hwf rfl hne
    rw [GetTableMD5_eq_spec md5 fmtV _ [] hwf,
      GetTableMD5_eq_spec md5 fmtV _ [] (setCell_wellFormed _ 0 0 v hwf)]
    simp only [digestSpec, Table.setCell, List.getD_cons_zero, List.set_cons_zero,
      List.flatMap_cons, List.flatMap_nil, List.append_nil]
    simp only at heq
    rw [heq]

/-- C6, amended: the digest is a function of the table and the salt, so two
computations over the unmodified table agree. A cell replaced by a value with
the same textual form leaves the digest unchanged. A cell replaced by any
value leaves the digest unchanged exactly when `md5` gives the same hash to
the two salted cell texts `salt ++ text(new)` and `salt ++ text(old)`, or
gives the same hash to the two accumulated byte sequences although they
differ; in every other case the digest changes. One more non-empty row makes
the accumulated byte sequence longer, and the digest stays unchanged exactly
when `md5` gives the longer sequence the hash of the shorter one. -/
theorem C6_digest_changes_unless_collision (md5 : List Byte → Digest)
    (fmtV : Value → List Byte) (t : Table) (salt : List Byte) (hwf : t.wellFormed) :
    GetTableMD5 md5 fmtV noFaults t salt = .ok (digestSpec md5 fmtV t salt) ∧
    (∀ i j old v, t.cell i j = some old → fmtV v = fmtV old →
      GetTableMD5 md5 fmtV noFaults (t.setCell i j v) salt
        = GetTableMD5 md5 fmtV noFaults t salt) ∧
    (∀ i j old v, t.cell i j = some old →
      (GetTableMD5 md5 fmtV noFaults (t.setCell i j v) salt
          = GetTableMD5 md5 fmtV noFaults t salt
        ↔ md5 (salt ++ fmtV v) = md5 (salt ++ fmtV old) ∨
          (cellHashes md5 fmtV (t.setCell i j v) salt ≠ cellHashes md5 fmtV t salt ∧
            md5 (cellHashes md5 fmtV (t.setCell i j v) salt)
              = md5 (cellHashes md5 fmtV t salt)))) ∧
    (∀ row, row.length = t.columns → row ≠ [] →
      cellHashes md5 fmtV (t.appendRow row) salt
        = cellHashes md5 fmtV t salt
            ++ row.flatMap (fun cell => (md5 (salt ++ fmtV cell)).bytes) ∧
      cellHashes md5 fmtV (t.appendRow row) salt ≠ cellHashes md5 fmtV t salt ∧
      (GetTableMD5 md5 fmtV noFaults (t.appendRow row) salt
          = GetTableMD5 md5 fmtV noFaults t salt
        ↔ md5 (cellHashes md5 fmtV (t.appendRow row) salt)
            = md5 (cellHashes md5 fmtV t salt))) := by
  refine ⟨GetTableMD5_eq_spec md5 fmtV t salt hwf, ?_, ?_, ?_⟩
  · intro i j old v hcell htext
    exact setCell_same_text md5 fmtV salt t i j old v hwf hcell htext
  · intro i j old v hcell
    rw [GetTableMD5_eq_iff md5 fmtV salt t _ hwf (setCell_wellFormed t i j v hwf)]
    have hiff := setCell_cellHashes_eq_iff md5 fmtV salt t i j old v hcell
    constructor
    · intro hmd5
      by_cases hB : cellHashes md5 fmtV (t.setCell i j v) salt = cellHashes md5 fmtV t salt
      · exact Or.inl (hiff.mp hB)
      · exact Or.inr ⟨hB, hmd5⟩
    · rintro (hcellEq | ⟨_, hmd5⟩)
      · rw [hiff.mpr hcellEq]
      · exact hmd5
  · intro row hlen hne
    exact ⟨appendRow_cellHashes md5 fmtV salt t row,
      appendRow_cellHashes_ne md5 fmtV salt t row hne,
      GetTableMD5_eq_iff md5 fmtV salt t _ hwf (appendRow_wellFormed t row hwf hlen)⟩

/-- C6, amended, on the table with the single row `(1, NULL)`: the text
`<nil>` written over `NULL` leaves the digest as it was, and `2` written over
`1` leaves it as it was exactly under one of the two hash coincidences. -/
theorem C6_digest_changes_unless_collision_witness :
    Table.wellFormed { columns := 2, rows := [[.integer 1, .null]] } ∧
    GetTableMD5 checksum16 fmtVGo noFaults
        (Table.setCell { columns := 2, rows := [[.integer 1, .null]] } 0 1
          (.text [60, 110, 105, 108, 62])) [115]
      = GetTableMD5 checksum16 fmtVGo noFaults
          { columns := 2, rows := [[.integer 1, .null]] } [115] ∧
    (GetTableMD5 checksum16 fmtVGo noFaults
        (Table.setCell { columns := 2, rows := [[.integer 1, .null]] } 0 0 (.integer 2)) [115]
      = GetTableMD5 checksum16 fmtVGo noFaults
          { columns := 2, rows := [[.integer 1, .null]] } [115]
      ↔ checksum16 ([115] ++ fmtVGo (.integer 2)) = checksum16 ([115] ++ fmtVGo (.integer 1)) ∨
        (cellHashes checksum16 fmtVGo
            (Table.setCell { columns := 2, rows := [[.integer 1, .null]] } 0 0 (.integer 2)) [115]
          ≠ cellHashes checksum16 fmtVGo { columns := 2, rows := [[.integer 1, .null]] } [115] ∧
        checksum16 (cellHashes checksum16 fmtVGo
            (Table.setCell { columns := 2, rows := [[.integer 1, .null]] } 0 0 (.integer 2)) [115])
          = checksum16
              (cellHashes checksum16 fmtVGo { columns := 2, rows := [[.integer 1, .null]] } [115]))) :=
  have h := C6_digest_changes_unless_collision checksum16 fmtVGo
    { columns := 2, rows := [[.integer 1, .null]] } [115] (by decide)
  ⟨by decide, h.2.1 0 1 .null (.text [60, 110, 105, 108, 62]) rfl rfl,
   h.2.2.1 0 0 (.integer 1) (.integer 2) rfl⟩

end Gdback
